import Mathlib

/-!
Shallow embedding of the scalar autograd engine in `src/autograd/scalar.rs`
(crate `nnn`): the `Float64Inner` node type, the `Float64` shared handle,
the operator constructors (`add`, `mul`, `sub`, `div`, `pow`, `relu`, `neg`),
the value-based `PartialEq` and the address-based `Hash` implementations,
and the backward engine (`backward` / `_backward`).

Modelling conventions:

* `f64` values are modelled by `F64`: either an exact rational (`fin q`) or
  `nan`.  Every numeric literal appearing in the repository and in the claims
  (1.5, 2.0, 3.0, 4.0, 5.0, -1.0, …) is exactly representable in binary
  floating point, and the arithmetic the claims exercise on them is exact, so
  rational arithmetic agrees with `f64` arithmetic there.  IEEE infinities and
  rounding are not modelled (collapsed into `nan` where they could arise);
  no claim's inputs reach those regions.
* The `Rc<RefCell<Float64Inner>>` heap is modelled by a `Store : List Node`;
  a `Float64` handle is an index into the store.  Operator constructors
  allocate by appending, exactly as `Float64::new` allocates a fresh cell, so
  every child index is strictly smaller than its parent's index
  (`wfStore`) — this is the embedding of "the children graph is acyclic,
  because operators only ever record pre-existing nodes as children".
* `RefCell` dynamic borrow checking is modelled where it can fail: a
  derivative rule that calls `borrow_mut` on a cell that is already borrowed
  (the node itself, held as `&Ref` for the whole rule, or the same child
  twice simultaneously as in `mul`'s rule) returns `none`, the model of a
  Rust panic (`BorrowMutError`).  Out-of-bounds `children[i]` indexing,
  which also panics, likewise returns `none`.
* Handle equality (`#[derive(PartialEq, Eq)]` on
  `Float64(Rc<RefCell<Float64Inner>>)`) goes through `Rc`'s `PartialEq`,
  which is specialized: since `Float64Inner` implements `Eq` (and hence
  `RefCell<Float64Inner>: Eq`), two `Rc`s that point to the SAME allocation
  compare equal by `Rc::ptr_eq` without reading the values; only handles to
  distinct allocations fall back to comparing the inner cells, i.e. to
  `Float64Inner`'s value-based `eq`.  `eqHandle` models exactly this:
  index equality (same allocation) OR `f64` equality of the values.
* The visited set `HashSet<Float64>` uses the source's `Hash` (allocation
  address of the inner cell, plus the children's hashes).  Distinct cells
  have distinct addresses, so, assuming the hasher is collision-free on
  them, the only stored entry ever probed for `visited.contains(self)` is
  `self`'s own earlier insertion (a clone sharing the allocation), and the
  probe's equality check succeeds by the `Rc::ptr_eq` fast path — for NaN
  values as much as for finite ones.  Hence `contains` is modelled as plain
  membership of the handle in the visited list.  Hash collisions between
  distinct cells (the allocator-dependent hazard flagged by the spec) are
  assumed absent.
-/

/-- Model of `f64`: an exact rational, or NaN.  Infinities are collapsed to
`nan` (they are produced by no input any claim exercises). -/
inductive F64 where
  | fin (q : ℚ)
  | nan
deriving DecidableEq

/-- Model of `f64` addition: exact on finite values, NaN-propagating. -/
def addF : F64 → F64 → F64
  | .fin a, .fin b => .fin (a + b)
  | _, _ => .nan

/-- Model of `f64` multiplication: exact on finite values, NaN-propagating. -/
def mulF : F64 → F64 → F64
  | .fin a, .fin b => .fin (a * b)
  | _, _ => .nan

/-- Model of `f64` subtraction: exact on finite values, NaN-propagating. -/
def subF : F64 → F64 → F64
  | .fin a, .fin b => .fin (a - b)
  | _, _ => .nan

/-- Model of Rust `f64::max`: if one operand is NaN it returns the other. -/
def maxF : F64 → F64 → F64
  | .fin a, .fin b => .fin (max a b)
  | .fin a, .nan => .fin a
  | .nan, .fin b => .fin b
  | .nan, .nan => .nan

/-- Model of IEEE `f64` equality (`==`): false whenever either side is NaN,
rational equality otherwise. -/
def beqF : F64 → F64 → Bool
  | .fin a, .fin b => a == b
  | _, _ => false

/-- Model of IEEE `f64` strict greater-than: false whenever either side is
NaN. -/
def gtF : F64 → F64 → Bool
  | .fin a, .fin b => b < a
  | _, _ => false

/-- Rational power with an integer exponent (`b ^ n`, with `b⁻¹` powers for
negative `n`). -/
def qzpow (b : ℚ) : ℤ → ℚ
  | .ofNat n => b ^ n
  | .negSucc n => (b ^ (n + 1))⁻¹

/-- Model of Rust `f64::powf`.  Exact for a finite base and a finite integer
exponent with nonzero base or nonnegative exponent — the only region this
repository exercises (`pow` is called with the test exponents and with
`-1.0` by `div`, and the derivative rule uses `p - 1.0`).  The remaining
regions (non-integer exponents, `0.0.powf` of a negative exponent, and the
IEEE special cases `powf(x, 0.0) = 1.0` / `powf(1.0, y) = 1.0` for NaN
arguments) are collapsed to `nan`; no claim's inputs reach them. -/
def powF : F64 → F64 → F64
  | .fin b, .fin e =>
      if e.den = 1 then
        if b = 0 ∧ e.num < 0 then .nan else .fin (qzpow b e.num)
      else .nan
  | _, _ => .nan

/-- The four backward function pointers that occur in the source
(`add`'s, `mul`'s, `Float64::pow`'s and `Float64::relu`'s rules).  The
source's `BackwardFn` is a plain `fn` pointer, so these tags enumerate its
possible values. -/
inductive BwdFn where
  | addFn
  | mulFn
  | powFn
  | reluFn
deriving DecidableEq

/-- Model of `Float64Inner`: value, gradient, operator tag, children
(handles, i.e. store indices), and the optional backward rule. -/
structure Node where
  v : F64
  g : F64
  op : String
  children : List Nat
  bwd : Option BwdFn
deriving DecidableEq

instance : Inhabited Node := ⟨{ v := .fin 0, g := .fin 0, op := "", children := [], bwd := none }⟩

/-- The heap of allocated `Float64Inner` cells; a `Float64` handle is an
index into it. -/
abbrev Store := List Node

/-- Dereference a handle (`handle.borrow()`). -/
def getN (s : Store) (i : Nat) : Node := List.getD s i default

/-- Write the gradient field of the node a handle points to
(`handle.borrow_mut().g = x`). -/
def setGrad (s : Store) (i : Nat) (x : F64) : Store :=
  List.set s i { getN s i with g := x }

/-- Length of the store (number of allocated cells). -/
def storeLen (s : Store) : Nat := List.length s

/-- Model of `impl PartialEq for Float64Inner`: `self.v == other.v` —
value-based, using `f64` equality. -/
def eqInner (a b : Node) : Bool := beqF a.v b.v

/-- Model of `==` on `Float64` handles: the derived `PartialEq` compares
the `Rc<RefCell<Float64Inner>>` fields, and `Rc`'s `PartialEq` is
specialized for `T: Eq` (which holds here, `Float64Inner: Eq`): it returns
true outright when both point to the same allocation (`Rc::ptr_eq`), and
only otherwise borrows the cells and runs `Float64Inner`'s value-based
`eq`.  Same allocation is same store index. -/
def eqHandle (s : Store) (a b : Nat) : Bool :=
  a == b || eqInner (getN s a) (getN s b)

/-- Model of the data fed to the hasher by `impl Hash for Float64Inner`:
the allocation address of the cell (distinct cells have distinct addresses,
so the store index stands for it) followed by the children's hash data,
obtained by recursively hashing each child's inner cell.  Fuel bounds the
recursion depth; `storeLen s` levels suffice on well-formed stores. -/
def hashData (s : Store) : Nat → Nat → List Nat
  | 0, _ => []
  | fuel + 1, i => i :: ((getN s i).children.map (hashData s fuel)).flatten

/-- Model of `visited.contains(self)` for `visited : HashSet<Float64>`.
The hash is address-based, so (absent hash collisions between distinct
cells) the only entry the probe compares against is `self`'s own earlier
insertion — a clone sharing the allocation — and that comparison
short-circuits to true via `Rc::ptr_eq` (active because
`Float64Inner: Eq`), never consulting the stored values.  So `contains`
is membership of the handle; the store argument is kept for the record
but the probe never reads it. -/
def hsContains (s : Store) (vis : List Nat) (i : Nat) : Bool :=
  List.contains vis i

/-- Model of `Float64::_backward`: depth-first traversal over the children
relation; a node is prepended to the output order after its whole child
subtree has been handled.  The traversal state is `(visited, sorted)`.
Fuel bounds the recursion depth only (the source recursion is bounded by
the depth of the graph); `none` models non-termination of the source
recursion at that depth. -/
def dfs (s : Store) : Nat → Nat → List Nat × List Nat → Option (List Nat × List Nat)
  | 0, _, _ => none
  | fuel + 1, i, st =>
    if hsContains s st.1 i then some st
    else
      match (getN s i).children.foldl
        (fun acc c =>
          match acc with
          | none => none
          | some st' => dfs s fuel c st') (some (i :: st.1, st.2)) with
      | none => none
      | some st' => some (st'.1, i :: st'.2)

/-- Run the derivative rule of node `i`, if it has one — the body of
`for v in sorted { if let Some(bwd) = v.borrow().bwd { bwd(&v.borrow()); } }`.
The node is held shared-borrowed for the duration of the rule, so any
`borrow_mut` of the node itself panics (`none`); `mul`'s rule holds both
children mutably borrowed at once, so it panics when they are the same
cell; `pow`'s rule shared-borrows the exponent while the base is mutably
borrowed, so it panics when they are the same cell.  Missing `children[i]`
indices panic as well. -/
def applyBwd (s : Store) (i : Nat) : Option Store :=
  match (getN s i).bwd with
  | none => some s
  | some .addFn =>
    match (getN s i).children with
    | c0 :: c1 :: _ =>
      -- children[0].borrow_mut().g += val.g;  (temporary, dropped at once)
      if c0 = i then none
      else
        let s1 := setGrad s c0 (addF (getN s c0).g (getN s i).g)
        -- children[1].borrow_mut().g += val.g;
        if c1 = i then none
        else some (setGrad s1 c1 (addF (getN s1 c1).g (getN s1 i).g))
    | _ => none
  | some .mulFn =>
    match (getN s i).children with
    | c0 :: c1 :: _ =>
      -- let mut lhs = children[0].borrow_mut(); let mut rhs = children[1].borrow_mut();
      -- both borrows live simultaneously: x * x panics here
      if c0 = i ∨ c1 = i ∨ c0 = c1 then none
      else
        let s1 := setGrad s c0 (addF (getN s c0).g (mulF (getN s i).g (getN s c1).v))
        some (setGrad s1 c1 (addF (getN s1 c1).g (mulF (getN s1 i).g (getN s1 c0).v)))
    | _ => none
  | some .powFn =>
    match (getN s i).children with
    | c0 :: c1 :: _ =>
      -- let mut b = children[0].borrow_mut(); let p = children[1].borrow();
      if c0 = i ∨ c1 = c0 then none
      else
        some (setGrad s c0 (addF (getN s c0).g
          (mulF (mulF (getN s i).g (getN s c1).v)
            (powF (getN s c0).v (subF (getN s c1).v (.fin 1))))))
    | _ => none
  | some .reluFn =>
    match (getN s i).children with
    | c0 :: _ =>
      -- origin.g += val.g * (((val.v > 0.0) as u8) as f64);
      if c0 = i then none
      else
        some (setGrad s c0 (addF (getN s c0).g
          (mulF (getN s i).g (if gtF (getN s i).v (.fin 0) then .fin 1 else .fin 0))))
    | _ => none

/-- Apply the derivative rules of the sorted nodes in order (the `backprop`
loop of `Float64::backward`). -/
def runRules (s : Store) : List Nat → Option Store
  | [] => some s
  | i :: rest =>
    match applyBwd s i with
    | none => none
    | some s' => runRules s' rest

/-- Model of `Float64::backward`: topologically sort the reachable graph by
the depth-first traversal, seed the root's gradient with `1.0` (a plain
assignment), then apply each sorted node's rule in order.  `none` models a
panic (or, were the fuel insufficient, nonterminating recursion — ruled out
for well-formed stores below). -/
def backward (r : Nat) (s : Store) : Option Store :=
  match dfs s (storeLen s + 1) r ([], []) with
  | none => none
  | some (_, sorted) => runRules (setGrad s r (.fin 1)) sorted

/-- Gradient of handle `i` after `backward(r)`, when the pass completes. -/
def gradAfter (r i : Nat) (s : Store) : Option F64 :=
  (backward r s).map fun t => (getN t i).g

/-- Model of `Float64::from` / `Float64Inner::new` for a leaf: allocate a
fresh cell holding the value, gradient `0.0`, empty op, no children, no
rule.  Returns the extended store and the new handle. -/
def mkLeaf (v : F64) (s : Store) : Store × Nat :=
  (s ++ [{ v := v, g := .fin 0, op := "", children := [], bwd := none }], storeLen s)

/-- Model of the free function `add`: forward value from the operands'
current values, children `[lhs, rhs]`, `add`'s rule attached. -/
def mkAdd (a b : Nat) (s : Store) : Store × Nat :=
  (s ++ [{ v := addF (getN s a).v (getN s b).v, g := .fin 0, op := "+",
           children := [a, b], bwd := some .addFn }], storeLen s)

/-- Model of the free function `mul`. -/
def mkMul (a b : Nat) (s : Store) : Store × Nat :=
  (s ++ [{ v := mulF (getN s a).v (getN s b).v, g := .fin 0, op := "*",
           children := [a, b], bwd := some .mulFn }], storeLen s)

/-- Model of `Float64::pow`: the forward value is computed first, then the
exponent is itself allocated as a leaf (`let p = Self::from(p)`), then the
power node is allocated with children `[base, exponent]`. -/
def mkPow (x : Nat) (p : ℚ) (s : Store) : Store × Nat :=
  let s1 := (mkLeaf (.fin p) s).1
  (s1 ++ [{ v := powF (getN s x).v (.fin p), g := .fin 0, op := "^",
            children := [x, storeLen s], bwd := some .powFn }], storeLen s + 1)

/-- Model of `Float64::relu`: forward value `self.v.max(0.0)`, one child. -/
def mkRelu (x : Nat) (s : Store) : Store × Nat :=
  (s ++ [{ v := maxF (getN s x).v (.fin 0), g := .fin 0, op := "ReLU",
           children := [x], bwd := some .reluFn }], storeLen s)

/-- Model of `Neg`: `self * -1.0` — allocates the constant leaf `-1.0`,
then the product node. -/
def mkNeg (x : Nat) (s : Store) : Store × Nat :=
  let r := mkLeaf (.fin (-1)) s
  mkMul x r.2 r.1

/-- Model of the free function `sub`: `lhs + -rhs`. -/
def mkSub (a b : Nat) (s : Store) : Store × Nat :=
  let r := mkNeg b s
  mkAdd a r.2 r.1

/-- Model of the free function `div`: `lhs * rhs.pow(-1.0)`. -/
def mkDiv (a b : Nat) (s : Store) : Store × Nat :=
  let r := mkPow b (-1) s
  mkMul a r.2 r.1

/-- One public graph-building operation, named by the handles it consumes.
This enumerates every constructor of the public surface. -/
inductive BStep where
  | leaf (v : F64)
  | add (a b : Nat)
  | mul (a b : Nat)
  | pow (x : Nat) (p : ℚ)
  | relu (x : Nat)
  | neg (x : Nat)
  | sub (a b : Nat)
  | div (a b : Nat)

/-- Apply one building step to a store, keeping the extended store. -/
def applyStep (s : Store) : BStep → Store
  | .leaf v => (mkLeaf v s).1
  | .add a b => (mkAdd a b s).1
  | .mul a b => (mkMul a b s).1
  | .pow x p => (mkPow x p s).1
  | .relu x => (mkRelu x s).1
  | .neg x => (mkNeg x s).1
  | .sub a b => (mkSub a b s).1
  | .div a b => (mkDiv a b s).1

/-- The store obtained by running a sequence of public constructor calls
from the empty heap: the "no prior backward pass has run" situation. -/
def buildStore (l : List BStep) : Store := l.foldl applyStep []

/-- Well-formed store: every child handle is strictly smaller than the
handle of the node that lists it.  Constructor-built stores with valid
handles have this shape (new cells only record pre-existing cells as
children), and it is the embedding's form of acyclicity of the children
relation. -/
def wfStore (s : Store) : Prop :=
  ∀ i, ∀ c ∈ (getN s i).children, c < i

/-- Boolean check for `wfStore` (indices at or beyond the store's length
hold the default childless node, so only allocated cells need checking). -/
def wfB (s : Store) : Bool :=
  (List.range (storeLen s)).all fun i => (getN s i).children.all fun c => c < i

/-- Reachability along the children relation, from `i` down. -/
inductive Reach (s : Store) : Nat → Nat → Prop
  | refl (i : Nat) : Reach s i i
  | tail {i j c : Nat} : Reach s i j → c ∈ (getN s j).children → Reach s i c

/-- Nodes not strictly descended from `n` (and different from `n`): the
region whose gradients cannot be influenced by `n`'s own gradient. -/
def SDesc (s : Store) (n m : Nat) : Prop :=
  ∃ c ∈ (getN s n).children, Reach s c m

/-- The child slots a node's derivative rule writes to: both children for
`add`'s and `mul`'s rules, only the base (`children[0]`) for `pow`'s rule,
the single child for `relu`'s rule. -/
def writeTargets (s : Store) (a : Nat) : List Nat :=
  match (getN s a).bwd, (getN s a).children with
  | some .addFn, c0 :: c1 :: _ => [c0, c1]
  | some .mulFn, c0 :: c1 :: _ => [c0, c1]
  | some .powFn, c0 :: _ => [c0]
  | some .reluFn, c0 :: _ => [c0]
  | _, _ => []

/-- Two stores with the same shape everywhere: equal values, op tags,
children and rules; only gradients may differ. -/
def SameShape (s t : Store) : Prop :=
  ∀ i, (getN s i).v = (getN t i).v ∧ (getN s i).op = (getN t i).op ∧
    (getN s i).children = (getN t i).children ∧ (getN s i).bwd = (getN t i).bwd

/-- Processing-order soundness: whenever `a` occurs in the order, all of
`a`'s children occur strictly later (rules run top-down, parents first). -/
def OrderOK (s : Store) (acc : List Nat) : Prop :=
  ∀ l1 a l2, acc = l1 ++ a :: l2 → ∀ c ∈ (getN s a).children, c ∈ l2

/-- The spec's diamond test vector: `x = 2.0`, `y = 3.0`, `z = 4.0`,
`l = x*y + x*z` (handles 0, 1, 2; products 3, 4; root 5). -/
def dSteps : List BStep :=
  [.leaf (.fin 2), .leaf (.fin 3), .leaf (.fin 4), .mul 0 1, .mul 0 2, .add 3 4]

/-- The diamond store before any backward pass. -/
def sDiamond : Store := buildStore dSteps

/-- The diamond store after `backward(l)`, written out: gradients 7, 2, 2
on the leaves and 1 on the interior nodes. -/
def tDiamond : Store :=
  [{ v := .fin 2, g := .fin 7, op := "", children := [], bwd := none },
   { v := .fin 3, g := .fin 2, op := "", children := [], bwd := none },
   { v := .fin 4, g := .fin 2, op := "", children := [], bwd := none },
   { v := .fin 6, g := .fin 1, op := "*", children := [0, 1], bwd := some .mulFn },
   { v := .fin 8, g := .fin 1, op := "*", children := [0, 2], bwd := some .mulFn },
   { v := .fin 14, g := .fin 1, op := "+", children := [3, 4], bwd := some .addFn }]

/-- A single leaf `x = 5.0` with `s = &x * &x` (the self-aliasing product). -/
def sXmulX : Store := buildStore [.leaf (.fin 5), .mul 0 0]

/-- A single leaf `x = 5.0` with `s = &x + &x` (the self-aliasing sum). -/
def sXaddX : Store := buildStore [.leaf (.fin 5), .add 0 0]

/-- The `x + x` store after `backward(s)`: `x.gradient = 2.0`, root seeded
to `1.0`. -/
def tXaddX : Store :=
  [{ v := .fin 5, g := .fin 2, op := "", children := [], bwd := none },
   { v := .fin 10, g := .fin 1, op := "+", children := [0, 0], bwd := some .addFn }]

/-- Two distinct leaves both holding `1.5` (the value of the repository's
own `add`/`mul` tests). -/
def sTwin : Store := buildStore [.leaf (.fin (3 / 2)), .leaf (.fin (3 / 2))]

/-- A single leaf holding NaN (`Float64::from(f64::NAN)`). -/
def sNanLeaf : Store := buildStore [.leaf .nan]

/-- A single leaf `x = 2.0` (base for the power-rule test vector). -/
def sPowBase : Store := buildStore [.leaf (.fin 2)]

/-- The store of `p = x.pow(3.0)` for `x = 2.0`, after `backward(p)`:
`x.gradient = 12.0`, the exponent leaf untouched, the root seeded. -/
def tPow : Store :=
  [{ v := .fin 2, g := .fin 12, op := "", children := [], bwd := none },
   { v := .fin 3, g := .fin 0, op := "", children := [], bwd := none },
   { v := .fin 8, g := .fin 1, op := "^", children := [0, 1], bwd := some .powFn }]

/-- A single leaf `x = 0.0` (the ReLU subgradient boundary test vector). -/
def sReluBase : Store := buildStore [.leaf (.fin 0)]

/-- The store of `r = relu(x)` for `x = 0.0`, after `backward(r)`:
`x.gradient` stays `0.0`. -/
def tRelu : Store :=
  [{ v := .fin 0, g := .fin 0, op := "", children := [], bwd := none },
   { v := .fin 0, g := .fin 1, op := "ReLU", children := [0], bwd := some .reluFn }]

/-- Two distinct leaves both holding NaN. -/
def sNanPair : Store := buildStore [.leaf .nan, .leaf .nan]

/-- A NaN-valued composite shared by both slots of its parent:
`a = Float64::from(f64::NAN)`, `b = Float64::from(0.0)`, `t = &a + &b`
(value NaN), `l = &t + &t`.  Node 2 (`t`) is reachable twice from the
root 3; the visited set still deduplicates it (pointer-equality fast
path), so its rule runs once. -/
def sNanShared : Store :=
  buildStore [.leaf .nan, .leaf (.fin 0), .add 0 1, .add 2 2]

/-- The traversal invariant carried by `_backward`'s state: processed
nodes are a subset of the visited ones, every visited node is reachable
from the root, and the output order is duplicate-free and parent-first. -/
def DfsInv (s : Store) (r : Nat) (vis acc : List Nat) : Prop :=
  (∀ x ∈ acc, x ∈ vis) ∧ (∀ x ∈ vis, Reach s r x) ∧ acc.Nodup ∧ OrderOK s acc

/-- Two traversal states have the same "gray" set (visited but not yet
placed in the output order — exactly the nodes whose recursive call is
still on the stack). -/
def GrayEq (vis acc vis' acc' : List Nat) : Prop :=
  ∀ x, (x ∈ vis' ∧ x ∉ acc') ↔ (x ∈ vis ∧ x ∉ acc)

/-- Relation between two backward runs over the same graph shape `s` that
differ only in node `n`'s starting gradient, by exactly `c`: gradients
agree everywhere outside `n` and `n`'s strict descendants, and at `n`
the first run's gradient exceeds the second's by `c`.  This is the
invariant behind "gradient accumulation adds on top of whatever was
there": the increment a backward pass gives `n` does not depend on `n`'s
own starting gradient. -/
def PairRel (s : Store) (n : Nat) (c : F64) (A B : Store) : Prop :=
  SameShape A s ∧ SameShape B s ∧
  storeLen A = storeLen s ∧ storeLen B = storeLen s ∧
  (getN A n).g = addF c ((getN B n).g) ∧
  (∀ m, m ≠ n → ¬ SDesc s n m → (getN A m).g = (getN B m).g)

section StoreLemmas

theorem getN_nil (i : Nat) : getN [] i = default := by
  cases i <;> rfl

theorem getN_eq_get? (s : Store) (i : Nat) : getN s i = (s.get? i).getD default := by
  unfold getN
  cases h : s.get? i with
  | none =>
    rw [List.getD_eq_default]
    · rfl
    · exact (List.get?_eq_none.mp h)
  | some a =>
    have hlt : i < s.length := List.get?_eq_some.mp h |>.1
    rw [List.getD_eq_getElem s default hlt]
    have := List.get?_eq_some.mp h |>.2
    simp only [List.get_eq_getElem] at this
    simp [this]

theorem getN_ge_len {s : Store} {i : Nat} (h : storeLen s ≤ i) : getN s i = default := by
  rw [getN_eq_get?, List.get?_len_le h]
  rfl

theorem storeLen_setGrad (s : Store) (i : Nat) (x : F64) :
    storeLen (setGrad s i x) = storeLen s := by
  unfold setGrad storeLen
  exact List.length_set s i _

theorem getN_setGrad_ne {s : Store} {i j : Nat} (x : F64) (h : j ≠ i) :
    getN (setGrad s i x) j = getN s j := by
  unfold setGrad
  rw [getN_eq_get?, List.get?_set_ne _ _ (Ne.symm h), ← getN_eq_get?]

theorem getN_setGrad_self {s : Store} {i : Nat} (x : F64) (h : i < storeLen s) :
    getN (setGrad s i x) i = { getN s i with g := x } := by
  unfold setGrad
  rw [getN_eq_get? (List.set s i _), List.get?_set_eq_of_lt _ (by simpa [storeLen] using h)]
  rfl

theorem setGrad_ge_len {s : Store} {i : Nat} (x : F64) (h : storeLen s ≤ i) :
    setGrad s i x = s := by
  unfold setGrad
  exact List.set_eq_of_length_le (by simpa [storeLen] using h)

theorem getN_setGrad_g {s : Store} {i : Nat} (x : F64) (h : i < storeLen s) :
    (getN (setGrad s i x) i).g = x := by
  rw [getN_setGrad_self x h]

theorem setGrad_getN_g (s : Store) (i : Nat) : setGrad s i (getN s i).g = s := by
  unfold setGrad
  have h1 : { getN s i with g := (getN s i).g } = getN s i := rfl
  rw [h1]
  apply List.ext_get?
  intro j
  rcases Decidable.em (j = i) with rfl | hne
  · rcases Nat.lt_or_ge j s.length with h | h
    · rw [List.get?_set_eq_of_lt _ h, getN_eq_get?, List.get?_eq_getElem? ,
        List.getElem?_eq_getElem h]
      rfl
    · rw [List.set_eq_of_length_le h]
  · rw [List.get?_set_ne _ _ fun hh => hne hh.symm]

theorem getN_append_lt {s : Store} (l : List Node) {i : Nat} (h : i < storeLen s) :
    getN (s ++ l) i = getN s i := by
  rw [getN_eq_get?, getN_eq_get?, List.get?_append (by simpa [storeLen] using h)]

theorem getN_append_len (s : Store) (n : Node) (l : List Node) :
    getN (s ++ n :: l) (storeLen s) = n := by
  rw [getN_eq_get?]
  unfold storeLen
  rw [List.get?_append_right (Nat.le_refl _)]
  simp

end StoreLemmas

section F64Lemmas

theorem addF_f0 (c : F64) : addF c (.fin 0) = c := by
  cases c <;> simp [addF]

theorem addF_comm (a b : F64) : addF a b = addF b a := by
  cases a <;> cases b <;> simp [addF] <;> ring

theorem addF_assoc (a b c : F64) : addF (addF a b) c = addF a (addF b c) := by
  cases a <;> cases b <;> cases c <;> simp [addF] <;> ring

theorem beqF_refl_of_ne_nan {x : F64} (h : x ≠ .nan) : beqF x x = true := by
  cases x with
  | fin q => simp [beqF]
  | nan => exact absurd rfl h

end F64Lemmas

section WfReachLemmas

theorem wfStore_of_wfB {s : Store} (h : wfB s = true) : wfStore s := by
  intro i c hc
  rcases Nat.lt_or_ge i (storeLen s) with hi | hi
  · have := List.all_eq_true.mp h i (List.mem_range.mpr hi)
    exact Nat.lt_of_lt_of_le (by simpa using List.all_eq_true.mp this c hc) (Nat.le_refl i)
  · rw [getN_ge_len hi] at hc
    simp [default] at hc

theorem Reach.trans {s : Store} {i j k : Nat} (h1 : Reach s i j) (h2 : Reach s j k) :
    Reach s i k := by
  induction h2 with
  | refl => exact h1
  | tail _ hc ih => exact Reach.tail ih hc

theorem Reach_le {s : Store} (wf : wfStore s) {i j : Nat} (h : Reach s i j) : j ≤ i := by
  induction h with
  | refl => exact Nat.le_refl _
  | tail _ hc ih => exact Nat.le_of_lt (Nat.lt_of_lt_of_le (wf _ _ hc) ih)

theorem not_child_of_reach {s : Store} (wf : wfStore s) {r a : Nat}
    (ha : Reach s r a) (hc : r ∈ (getN s a).children) : False :=
  Nat.lt_irrefl r (Nat.lt_of_lt_of_le (wf a r hc) (Reach_le wf ha))

theorem SDesc_lt {s : Store} (wf : wfStore s) {n m : Nat} (h : SDesc s n m) : m < n := by
  obtain ⟨c, hc, hr⟩ := h
  exact Nat.lt_of_le_of_lt (Reach_le wf hr) (wf n c hc)

theorem SDesc_not_self {s : Store} (wf : wfStore s) (n : Nat) : ¬ SDesc s n n :=
  fun h => Nat.lt_irrefl n (SDesc_lt wf h)

theorem SDesc_step {s : Store} {n a m : Nat} (hm : m ∈ (getN s a).children)
    (ha : a = n ∨ SDesc s n a) : SDesc s n m := by
  rcases ha with rfl | ⟨c, hc, hr⟩
  · exact ⟨m, hm, Reach.refl m⟩
  · exact ⟨c, hc, Reach.tail hr hm⟩

end WfReachLemmas

section ShapeLemmas

theorem sameShapeRefl (s : Store) : SameShape s s := fun _ => ⟨rfl, rfl, rfl, rfl⟩

theorem sameShapeTrans {s t u : Store} (h1 : SameShape s t) (h2 : SameShape t u) :
    SameShape s u := by
  intro i
  obtain ⟨a1, b1, c1, d1⟩ := h1 i
  obtain ⟨a2, b2, c2, d2⟩ := h2 i
  exact ⟨a1.trans a2, b1.trans b2, c1.trans c2, d1.trans d2⟩

theorem sameShape_setGrad (s : Store) (i : Nat) (x : F64) :
    SameShape (setGrad s i x) s := by
  intro j
  rcases Decidable.em (j = i) with rfl | hne
  · rcases Nat.lt_or_ge j (storeLen s) with h | h
    · rw [getN_setGrad_self x h]
      exact ⟨rfl, rfl, rfl, rfl⟩
    · rw [setGrad_ge_len x h]
      exact ⟨rfl, rfl, rfl, rfl⟩
  · rw [getN_setGrad_ne x hne]
    exact ⟨rfl, rfl, rfl, rfl⟩

theorem writeTargets_congr {s t : Store} (h : SameShape s t) (a : Nat) :
    writeTargets s a = writeTargets t a := by
  unfold writeTargets
  rw [(h a).2.2.1, (h a).2.2.2]

theorem writeTargets_subset_children {s : Store} {a m : Nat}
    (h : m ∈ writeTargets s a) : m ∈ (getN s a).children := by
  unfold writeTargets at h
  split at h <;> simp_all <;> tauto

theorem hsContains_congr {s t : Store} (h : SameShape s t) (vis : List Nat) (i : Nat) :
    hsContains s vis i = hsContains t vis i := rfl

end ShapeLemmas

section ApplyBwdLemmas

theorem applyBwd_spec {s t : Store} {i : Nat} (h : applyBwd s i = some t) :
    SameShape t s ∧ ∀ m, m ∉ writeTargets s i → (getN t m).g = (getN s m).g := by
  unfold applyBwd at h
  split at h
  case _ hb =>
    cases h
    exact ⟨sameShapeRefl _, fun m _ => rfl⟩
  case _ hb =>
    split at h
    case _ c0 c1 rest hch =>
      split at h
      · exact absurd h (by simp)
      case _ h0 =>
        split at h
        · exact absurd h (by simp)
        case _ h1 =>
          cases h
          refine ⟨sameShapeTrans (sameShape_setGrad _ _ _) (sameShape_setGrad _ _ _), ?_⟩
          intro m hm
          rw [writeTargets, hb, hch] at hm
          simp at hm
          rw [getN_setGrad_ne _ hm.2, getN_setGrad_ne _ hm.1]
    case _ => exact absurd h (by simp)
  case _ hb =>
    split at h
    case _ c0 c1 rest hch =>
      split at h
      · exact absurd h (by simp)
      case _ hg =>
        cases h
        refine ⟨sameShapeTrans (sameShape_setGrad _ _ _) (sameShape_setGrad _ _ _), ?_⟩
        intro m hm
        rw [writeTargets, hb, hch] at hm
        simp at hm
        rw [getN_setGrad_ne _ hm.2, getN_setGrad_ne _ hm.1]
    case _ => exact absurd h (by simp)
  case _ hb =>
    split at h
    case _ c0 rest hch =>
      split at h
      · exact absurd h (by simp)
      case _ hg =>
        cases h
        refine ⟨sameShape_setGrad _ _ _, ?_⟩
        intro m hm
        rw [writeTargets, hb, hch] at hm
        simp at hm
        rw [getN_setGrad_ne _ hm]
    case _ => exact absurd h (by simp)
  case _ hb =>
    split at h
    case _ c0 rest hch =>
      split at h
      · exact absurd h (by simp)
      case _ h0 =>
        cases h
        refine ⟨sameShape_setGrad _ _ _, ?_⟩
        intro m hm
        rw [writeTargets, hb, hch] at hm
        simp at hm
        rw [getN_setGrad_ne _ hm]
    case _ => exact absurd h (by simp)

theorem runRules_spec : ∀ {l : List Nat} {s t : Store}, runRules s l = some t →
    SameShape t s ∧ ∀ m, (∀ a ∈ l, m ∉ writeTargets s a) → (getN t m).g = (getN s m).g := by
  intro l
  induction l with
  | nil =>
    intro s t h
    cases h
    exact ⟨sameShapeRefl _, fun m _ => rfl⟩
  | cons a rest ih =>
    intro s t h
    unfold runRules at h
    split at h
    · exact absurd h (by simp)
    case _ s' hs' =>
      obtain ⟨hsh1, hfr1⟩ := applyBwd_spec hs'
      obtain ⟨hsh2, hfr2⟩ := ih h
      refine ⟨sameShapeTrans hsh2 hsh1, ?_⟩
      intro m hm
      have h2 : (getN t m).g = (getN s' m).g := by
        apply hfr2
        intro a' ha'
        rw [writeTargets_congr hsh1]
        exact hm a' (List.mem_cons_of_mem _ ha')
      rw [h2]
      exact hfr1 m (hm a (List.mem_cons_self _ _))

end ApplyBwdLemmas

section DfsLemmas

theorem dfsFoldNone {s : Store} {fuel : Nat} : ∀ (l : List Nat),
    l.foldl (fun acc c => match acc with
      | none => none
      | some st' => dfs s fuel c st') none = none := by
  intro l
  induction l with
  | nil => rfl
  | cons c cs ih => simpa [List.foldl_cons] using ih

theorem dfs_congr {s t : Store} (h : SameShape s t) :
    ∀ (fuel : Nat) (i : Nat) (st : List Nat × List Nat),
    dfs s fuel i st = dfs t fuel i st := by
  intro fuel
  induction fuel with
  | zero => intro i st; rfl
  | succ fuel ih =>
    intro i st
    rw [dfs, dfs, hsContains_congr h, (h i).2.2.1]
    have key : ∀ (l : List Nat) (a : Option (List Nat × List Nat)),
        l.foldl (fun acc c => match acc with
          | none => none
          | some st' => dfs s fuel c st') a =
        l.foldl (fun acc c => match acc with
          | none => none
          | some st' => dfs t fuel c st') a := by
      intro l
      induction l with
      | nil => intro a; rfl
      | cons c cs ihl =>
        intro a
        rw [List.foldl_cons, List.foldl_cons, ihl]
        cases a with
        | none => rfl
        | some st0 =>
          dsimp only
          rw [ih c st0]
    rw [key]

theorem dfs_reach {s : Store} : ∀ (fuel : Nat) {i : Nat} {st st' : List Nat × List Nat},
    dfs s fuel i st = some st' →
    (∀ x ∈ st'.1, x ∈ st.1 ∨ Reach s i x) ∧ (∀ x ∈ st'.2, x ∈ st.2 ∨ Reach s i x) := by
  intro fuel
  induction fuel with
  | zero => intro i st st' h; exact absurd h (by rw [dfs]; simp)
  | succ fuel ih =>
    intro i st st' h
    rw [dfs] at h
    split at h
    · cases h
      exact ⟨fun x hx => Or.inl hx, fun x hx => Or.inl hx⟩
    · have key : ∀ (l : List Nat), (∀ c ∈ l, Reach s i c) →
          ∀ (st0 stf : List Nat × List Nat),
          l.foldl (fun acc c => match acc with
            | none => none
            | some st' => dfs s fuel c st') (some st0) = some stf →
          (∀ x ∈ stf.1, x ∈ st0.1 ∨ Reach s i x) ∧
          (∀ x ∈ stf.2, x ∈ st0.2 ∨ Reach s i x) := by
        intro l
        induction l with
        | nil =>
          intro _ st0 stf h0
          cases h0
          exact ⟨fun x hx => Or.inl hx, fun x hx => Or.inl hx⟩
        | cons c cs ihl =>
          intro hcs st0 stf h0
          rw [List.foldl_cons] at h0
          dsimp only at h0
          cases hd : dfs s fuel c st0 with
          | none =>
            rw [hd, dfsFoldNone cs] at h0
            exact absurd h0 (by simp)
          | some st1 =>
            rw [hd] at h0
            have hic : Reach s i c := hcs c (List.mem_cons_self _ _)
            obtain ⟨v1, a1⟩ := ih hd
            obtain ⟨v2, a2⟩ := ihl (fun c' hc' => hcs c' (List.mem_cons_of_mem _ hc')) st1 stf h0
            constructor
            · intro x hx
              rcases v2 x hx with hx1 | hx1
              · rcases v1 x hx1 with hx2 | hx2
                · exact Or.inl hx2
                · exact Or.inr (hic.trans hx2)
              · exact Or.inr hx1
            · intro x hx
              rcases a2 x hx with hx1 | hx1
              · rcases a1 x hx1 with hx2 | hx2
                · exact Or.inl hx2
                · exact Or.inr (hic.trans hx2)
              · exact Or.inr hx1
      split at h
      · exact absurd h (by simp)
      case _ stf hf =>
        cases h
        have hch : ∀ c ∈ (getN s i).children, Reach s i c :=
          fun c hc => Reach.tail (Reach.refl i) hc
        obtain ⟨hv, ha⟩ := key _ hch _ _ hf
        constructor
        · intro x hx
          rcases hv x hx with hx1 | hx1
          · rcases List.mem_cons.mp hx1 with rfl | hx2
            · exact Or.inr (Reach.refl x)
            · exact Or.inl hx2
          · exact Or.inr hx1
        · intro x hx
          rcases List.mem_cons.mp hx with rfl | hx1
          · exact Or.inr (Reach.refl x)
          · rcases ha x hx1 with hx2 | hx2
            · exact Or.inl hx2
            · exact Or.inr hx2

theorem dfs_some {s : Store} (wf : wfStore s) : ∀ (fuel i : Nat)
    (st : List Nat × List Nat), i < fuel → ∃ st', dfs s fuel i st = some st' := by
  intro fuel
  induction fuel with
  | zero => intro i st h; exact absurd h (Nat.not_lt_zero i)
  | succ fuel ih =>
    intro i st hi
    rw [dfs]
    split
    · exact ⟨st, rfl⟩
    · have hch : ∀ c ∈ (getN s i).children, c < fuel :=
        fun c hc => Nat.lt_of_lt_of_le (wf i c hc) (Nat.lt_succ_iff.mp hi)
      have key : ∀ (l : List Nat), (∀ c ∈ l, c < fuel) →
          ∀ (st0 : List Nat × List Nat), ∃ stf,
          l.foldl (fun acc c => match acc with
            | none => none
            | some st' => dfs s fuel c st') (some st0) = some stf := by
        intro l
        induction l with
        | nil => intro _ st0; exact ⟨st0, rfl⟩
        | cons c cs ihl =>
          intro hcs st0
          obtain ⟨st1, h1⟩ := ih c st0 (hcs c (List.mem_cons_self _ _))
          obtain ⟨stf, h2⟩ := ihl (fun c' hc' => hcs c' (List.mem_cons_of_mem _ hc')) st1
          refine ⟨stf, ?_⟩
          rw [List.foldl_cons]
          dsimp only
          rw [h1, h2]
      obtain ⟨stf, hstf⟩ := key _ hch _
      rw [hstf]
      exact ⟨_, rfl⟩

end DfsLemmas


section BuilderLemmas

theorem storeLen_append (s : Store) (l : List Node) :
    storeLen (s ++ l) = storeLen s + l.length := by
  simp [storeLen]

theorem getN_append_ge {s : Store} (l : List Node) {i : Nat} (h : storeLen s ≤ i) :
    getN (s ++ l) i = getN l (i - storeLen s) := by
  rw [getN_eq_get?, getN_eq_get?, List.get?_append_right h]
  rfl

theorem getN_g0_of_all {l : List Node} (h : ∀ n ∈ l, n.g = .fin 0) (j : Nat) :
    (getN l j).g = .fin 0 := by
  rw [getN_eq_get?]
  cases hj : l.get? j with
  | none => rfl
  | some a => exact h a (List.get?_mem hj)

theorem append_g0 {s : Store} {l : List Node} (h : ∀ i, (getN s i).g = .fin 0)
    (hl : ∀ n ∈ l, n.g = .fin 0) : ∀ i, (getN (s ++ l) i).g = .fin 0 := by
  intro i
  rcases Nat.lt_or_ge i (storeLen s) with hi | hi
  · rw [getN_append_lt _ hi]
    exact h i
  · rw [getN_append_ge _ hi]
    exact getN_g0_of_all hl _

theorem appendOne_getN_lt {u : Store} (n : Node) {i : Nat} (h : i < storeLen u) :
    getN (u ++ [n]) i = getN u i ∧ i < storeLen (u ++ [n]) :=
  ⟨getN_append_lt [n] h, by rw [storeLen_append]; omega⟩

theorem applyStep_getN_lt {s : Store} (st : BStep) {i : Nat} (h : i < storeLen s) :
    getN (applyStep s st) i = getN s i := by
  cases st with
  | leaf v => exact (appendOne_getN_lt _ h).1
  | add a b => exact (appendOne_getN_lt _ h).1
  | mul a b => exact (appendOne_getN_lt _ h).1
  | pow x p =>
    obtain ⟨e1, l1⟩ := appendOne_getN_lt
      { v := .fin p, g := .fin 0, op := "", children := [], bwd := none } h
    obtain ⟨e2, _⟩ := appendOne_getN_lt
      { v := powF (getN s x).v (.fin p), g := .fin 0, op := "^",
        children := [x, storeLen s], bwd := some .powFn } l1
    exact e2.trans e1
  | relu x => exact (appendOne_getN_lt _ h).1
  | neg x =>
    obtain ⟨e1, l1⟩ := appendOne_getN_lt
      { v := .fin (-1), g := .fin 0, op := "", children := [], bwd := none } h
    obtain ⟨e2, _⟩ := appendOne_getN_lt _ l1
    exact e2.trans e1
  | sub a b =>
    obtain ⟨e1, l1⟩ := appendOne_getN_lt
      { v := .fin (-1), g := .fin 0, op := "", children := [], bwd := none } h
    obtain ⟨e2, l2⟩ := appendOne_getN_lt _ l1
    obtain ⟨e3, _⟩ := appendOne_getN_lt _ l2
    exact (e3.trans e2).trans e1
  | div a b =>
    obtain ⟨e1, l1⟩ := appendOne_getN_lt
      { v := .fin (-1 : ℚ), g := .fin 0, op := "", children := [], bwd := none } h
    obtain ⟨e2, l2⟩ := appendOne_getN_lt _ l1
    obtain ⟨e3, _⟩ := appendOne_getN_lt _ l2
    exact (e3.trans e2).trans e1

theorem append_one_g0 {s : Store} (h : ∀ i, (getN s i).g = .fin 0) {n : Node}
    (hn : n.g = .fin 0) : ∀ i, (getN (s ++ [n]) i).g = .fin 0 := by
  apply append_g0 h
  intro m hm
  rw [List.mem_singleton.mp hm]
  exact hn

theorem applyStep_g0 {s : Store} (h : ∀ i, (getN s i).g = .fin 0) (st : BStep) :
    ∀ i, (getN (applyStep s st) i).g = .fin 0 := by
  cases st with
  | leaf v => exact append_one_g0 h rfl
  | add a b => exact append_one_g0 h rfl
  | mul a b => exact append_one_g0 h rfl
  | pow x p => exact append_one_g0 (append_one_g0 h rfl) rfl
  | relu x => exact append_one_g0 h rfl
  | neg x => exact append_one_g0 (append_one_g0 h rfl) rfl
  | sub a b => exact append_one_g0 (append_one_g0 (append_one_g0 h rfl) rfl) rfl
  | div a b => exact append_one_g0 (append_one_g0 (append_one_g0 h rfl) rfl) rfl

theorem buildStore_g0 (steps : List BStep) : ∀ i, (getN (buildStore steps) i).g = .fin 0 := by
  have key : ∀ (l : List BStep) (s : Store), (∀ i, (getN s i).g = .fin 0) →
      ∀ i, (getN (l.foldl applyStep s) i).g = .fin 0 := by
    intro l
    induction l with
    | nil => intro s h i; exact h i
    | cons st rest ih =>
      intro s h i
      exact ih _ (applyStep_g0 h st) i
  intro i
  apply key steps []
  intro j
  rw [getN_nil]
  rfl

end BuilderLemmas

section BackwardLemmas

theorem backward_parts {r : Nat} {s t : Store} (h : backward r s = some t) :
    ∃ vis sorted, dfs s (storeLen s + 1) r ([], []) = some (vis, sorted) ∧
      runRules (setGrad s r (.fin 1)) sorted = some t := by
  unfold backward at h
  split at h
  · exact absurd h (by simp)
  case _ vis sorted hd => exact ⟨vis, sorted, hd, h⟩

theorem backward_shape {r : Nat} {s t : Store} (h : backward r s = some t) :
    SameShape t s := by
  obtain ⟨vis, sorted, hd, hr⟩ := backward_parts h
  exact sameShapeTrans (runRules_spec hr).1 (sameShape_setGrad s r (.fin 1))

theorem sorted_reach {r : Nat} {s : Store} {vis sorted : List Nat}
    (hd : dfs s (storeLen s + 1) r ([], []) = some (vis, sorted)) :
    ∀ a ∈ sorted, Reach s r a := by
  intro a ha
  rcases (dfs_reach _ hd).2 a ha with h | h
  · exact absurd h (List.not_mem_nil a)
  · exact h

theorem backward_root_g {r : Nat} {s t : Store} (wf : wfStore s)
    (hr : r < storeLen s) (h : backward r s = some t) : (getN t r).g = .fin 1 := by
  obtain ⟨vis, sorted, hd, hrun⟩ := backward_parts h
  have hfr := (runRules_spec hrun).2 r ?_
  · rw [hfr, getN_setGrad_g _ hr]
  · intro a ha hw
    rw [writeTargets_congr (sameShape_setGrad s r (.fin 1))] at hw
    exact not_child_of_reach wf (sorted_reach hd a ha) (writeTargets_subset_children hw)

theorem backward_g_frame {r : Nat} {s t : Store} (h : backward r s = some t) :
    ∀ n, (getN t n).g ≠ (getN s n).g → Reach s r n := by
  obtain ⟨vis, sorted, hd, hrun⟩ := backward_parts h
  intro n hg
  rcases Decidable.em (n = r) with rfl | hne
  · exact Reach.refl n
  · by_contra hnr
    apply hg
    have h1 : (getN t n).g = (getN (setGrad s r (.fin 1)) n).g := by
      apply (runRules_spec hrun).2 n
      intro a ha hw
      rw [writeTargets_congr (sameShape_setGrad s r (.fin 1))] at hw
      exact hnr (Reach.tail (sorted_reach hd a ha) (writeTargets_subset_children hw))
    rw [h1, getN_setGrad_ne _ hne]

end BackwardLemmas

/-!
Claim theorems.
-/

/-- C1: the claim asks for identity-based equality and hashing on handles
(`a == b` iff same underlying node, and `hash a = hash b` whenever
`a == b`).  The code violates both halves: two distinct leaves both
holding `1.5` compare equal (for distinct allocations the `Rc::ptr_eq`
fast path does not apply, and the comparison falls back to
`Float64Inner`'s value-only `eq`), while their hash data (allocation
address plus children hashes) differ.  This theorem evaluates the
embedded implementations at that failing input. -/
theorem eq_value_based_breaks_identity :
    eqHandle sTwin 0 1 = true ∧
    hashData sTwin (storeLen sTwin) 0 ≠ hashData sTwin (storeLen sTwin) 1 :=
  ⟨of_decide_eq_true (by with_unfolding_all rfl),
   of_decide_eq_true (by with_unfolding_all rfl)⟩

/-- C10 counterexample: the claim as stated says handle equality is
decided solely by comparing values with `f64` equality, making
`h == h` false for a NaN-valued handle.  It is not: `Rc`'s `PartialEq`
short-circuits to true on pointer equality when the pointee implements
`Eq` — which `Float64Inner` does — so a NaN leaf IS equal to itself. -/
theorem nan_handle_self_eq_true : eqHandle sNanLeaf 0 0 = true :=
  of_decide_eq_true (by with_unfolding_all rfl)

/-- C10 (amended): handle equality first short-circuits on pointer
equality (same allocation — in particular `h == h` is always true,
`Eq`'s reflexivity holds), and only handles to distinct nodes are
decided by comparing the two nodes' numeric values with `f64` equality;
consequently a NaN-valued node is unequal to every OTHER node, including
other NaN-valued ones. -/
theorem eqHandle_ptr_then_value :
    (∀ (s : Store) (a b : Nat),
      eqHandle s a b = (a == b || beqF (getN s a).v (getN s b).v)) ∧
    (∀ (s : Store) (h : Nat), eqHandle s h h = true) ∧
    (∀ (s : Store) (a b : Nat), a ≠ b →
      eqHandle s a b = beqF (getN s a).v (getN s b).v) := by
  refine ⟨fun s a b => rfl, fun s h => ?_, fun s a b hab => ?_⟩
  · unfold eqHandle
    rw [beq_self_eq_true]
    rfl
  · unfold eqHandle
    rw [beq_eq_false_iff_ne.mpr hab]
    rfl

/-- C10 witness: two DISTINCT NaN leaves are unequal (value comparison,
NaN ≠ NaN), while each of them equals itself (pointer fast path). -/
theorem eqHandle_ptr_then_value_witness :
    eqHandle sNanPair 0 1 = false ∧ eqHandle sNanPair 0 0 = true := by
  constructor
  · rw [eqHandle_ptr_then_value.2.2 sNanPair 0 1 (by decide)]
    exact of_decide_eq_true (by with_unfolding_all rfl)
  · exact eqHandle_ptr_then_value.2.1 sNanPair 0

/-- C2: the claim says both `x + x` and `x * x` backpropagate correctly
through two independent accumulation steps.  The `add` half does behave as
claimed (`x.gradient = 2.0` for `x = 5.0`), but the `mul` half panics: its
derivative rule holds `children[0].borrow_mut()` and
`children[1].borrow_mut()` alive simultaneously, and for `x * x` both are
the same cell, a `BorrowMutError` — modelled as `none`.  The traversal
itself succeeds (`dfs` returns the order `[1, 0]`), isolating the panic in
the rule application. -/
theorem self_aliasing_add_works_mul_panics :
    gradAfter 1 0 sXaddX = some (.fin 2) ∧
    dfs sXmulX (storeLen sXmulX + 1) 1 ([], []) = some ([0, 1], [1, 0]) ∧
    backward 1 sXmulX = none :=
  ⟨of_decide_eq_true (by with_unfolding_all rfl),
   of_decide_eq_true (by with_unfolding_all rfl),
   of_decide_eq_true (by with_unfolding_all rfl)⟩

/-- C4: the diamond graph `x = 2.0`, `y = 3.0`, `z = 4.0`,
`l = x*y + x*z`: after `backward(l)`, `l.gradient = 1.0`,
`y.gradient = 2.0`, `z.gradient = 2.0`, and `x.gradient = 7.0` (both
paths to `x` summed). -/
theorem diamond_gradients :
    backward 5 sDiamond = some tDiamond ∧
    (getN tDiamond 5).g = .fin 1 ∧ (getN tDiamond 1).g = .fin 2 ∧
    (getN tDiamond 2).g = .fin 2 ∧ (getN tDiamond 0).g = .fin 7 :=
  ⟨of_decide_eq_true (by with_unfolding_all rfl), rfl, rfl, rfl, rfl⟩

/-- C8: frame property.  Operator constructors only append: every
pre-existing node is untouched.  `backward` preserves every node's value,
op tag, children and rule (`SameShape`), and a node whose gradient changed
is reachable from the root. -/
theorem constructors_pure_backward_writes_grad_only :
    (∀ (s : Store) (st : BStep) (i : Nat), i < storeLen s →
      getN (applyStep s st) i = getN s i) ∧
    (∀ (r : Nat) (s t : Store), backward r s = some t →
      SameShape t s ∧ ∀ n, (getN t n).g ≠ (getN s n).g → Reach s r n) := by
  constructor
  · intro s st i h
    exact applyStep_getN_lt st h
  · intro r s t h
    exact ⟨backward_shape h, backward_g_frame h⟩

/-- C8 witness: instantiated on the diamond graph — building on top of it
leaves node 0 unchanged, `backward` leaves all shapes unchanged, and node
0 (whose gradient became 7) is reachable from the root 5. -/
theorem constructors_pure_backward_writes_grad_only_witness :
    getN (applyStep sDiamond (.add 0 1)) 0 = getN sDiamond 0 ∧
    SameShape tDiamond sDiamond ∧ Reach sDiamond 5 0 := by
  have h1 := constructors_pure_backward_writes_grad_only.1 sDiamond (.add 0 1) 0
    (of_decide_eq_true (by with_unfolding_all rfl))
  have hb : backward 5 sDiamond = some tDiamond :=
    of_decide_eq_true (by with_unfolding_all rfl)
  have h2 := constructors_pure_backward_writes_grad_only.2 5 sDiamond tDiamond hb
  exact ⟨h1, h2.1, h2.2 0 (of_decide_eq_true (by with_unfolding_all rfl))⟩

/-- C9: for every well-formed (finite, acyclic) store and in-range root,
the depth-first traversal of `backward` terminates: the recursion never
exhausts the depth bound `backward` runs it with. -/
theorem backward_traversal_terminates (s : Store) (r : Nat) (wf : wfStore s)
    (hr : r < storeLen s) : ∃ st', dfs s (storeLen s + 1) r ([], []) = some st' :=
  dfs_some wf (storeLen s + 1) r ([], []) (Nat.lt_succ_of_lt hr)

/-- C9 witness: the traversal terminates on the diamond graph. -/
theorem backward_traversal_terminates_witness :
    ∃ st', dfs sDiamond (storeLen sDiamond + 1) 5 ([], []) = some st' :=
  backward_traversal_terminates sDiamond 5
    (wfStore_of_wfB (of_decide_eq_true (by with_unfolding_all rfl)))
    (of_decide_eq_true (by with_unfolding_all rfl))

section DfsInvariant

theorem orderOK_closed {s : Store} {acc : List Nat} (h : OrderOK s acc) :
    ∀ a ∈ acc, ∀ c ∈ (getN s a).children, c ∈ acc := by
  intro a ha c hc
  obtain ⟨l1, l2, rfl⟩ := List.append_of_mem ha
  exact List.mem_append.mpr (Or.inr (List.mem_cons.mpr (Or.inr (h l1 a l2 rfl c hc))))

theorem reach_mem_closed {s : Store} {acc : List Nat}
    (hcl : ∀ a ∈ acc, ∀ c ∈ (getN s a).children, c ∈ acc) {i x : Nat}
    (hi : i ∈ acc) (hr : Reach s i x) : x ∈ acc := by
  induction hr with
  | refl => exact hi
  | tail _ hc ih => exact hcl _ ih _ hc

theorem orderOK_cons {s : Store} {acc : List Nat} {i : Nat} (h : OrderOK s acc)
    (hch : ∀ c ∈ (getN s i).children, c ∈ acc) : OrderOK s (i :: acc) := by
  intro l1 a l2 he c hc
  cases l1 with
  | nil =>
    rw [List.nil_append] at he
    injection he with h1 h2
    subst h1
    subst h2
    exact hch c hc
  | cons b l1' =>
    rw [List.cons_append] at he
    injection he with h1 h2
    exact h l1' a l2 h2 c hc

theorem mem_of_hsContains {s : Store} {vis : List Nat} {i : Nat}
    (h : hsContains s vis i = true) : i ∈ vis := by
  unfold hsContains at h
  exact List.elem_iff.mp h

theorem hsContains_of_mem {s : Store} {vis : List Nat} {i : Nat}
    (hm : i ∈ vis) : hsContains s vis i = true := by
  unfold hsContains List.contains
  exact List.elem_eq_true_of_mem hm

theorem dfs_main {s : Store} {r : Nat} (wf : wfStore s) :
    ∀ (fuel : Nat) {i : Nat} {vis acc vis' acc' : List Nat},
    Reach s r i → i < fuel →
    DfsInv s r vis acc → (∀ x ∈ vis, x ∉ acc → i < x) →
    dfs s fuel i (vis, acc) = some (vis', acc') →
    DfsInv s r vis' acc' ∧ GrayEq vis acc vis' acc' ∧
    (∀ x ∈ vis, x ∈ vis') ∧ (∃ pre, acc' = pre ++ acc) ∧
    (∀ x, Reach s i x → x ∈ acc') := by
  intro fuel
  induction fuel with
  | zero =>
    intro i vis acc vis' acc' _ hif
    exact absurd hif (Nat.not_lt_zero i)
  | succ fuel ih =>
    intro i vis acc vis' acc' hri hif hinv hgray hd
    obtain ⟨hav, hvr, hnd, hord⟩ := hinv
    rw [dfs] at hd
    by_cases hc : hsContains s vis i = true
    · rw [if_pos hc] at hd
      injection hd with hd
      injection hd with hd1 hd2
      subst hd1
      subst hd2
      have hia : i ∈ acc := by
        by_contra hia
        exact Nat.lt_irrefl i (hgray i (mem_of_hsContains hc) hia)
      refine ⟨⟨hav, hvr, hnd, hord⟩, fun x => Iff.rfl, fun x hx => hx, ⟨[], rfl⟩, ?_⟩
      intro x hx
      exact reach_mem_closed (orderOK_closed hord) hia hx
    · rw [if_neg hc] at hd
      have hiv : i ∉ vis := fun hm => hc (hsContains_of_mem hm)
      have hia : i ∉ acc := fun hm => hiv (hav i hm)
      -- the fold over the children, starting from (i :: vis, acc)
      have fold_main : ∀ (l : List Nat), (∀ c ∈ l, c ∈ (getN s i).children) →
          ∀ {vis0 acc0 visF accF : List Nat},
          DfsInv s r vis0 acc0 → (∀ x ∈ vis0, x ∉ acc0 → i ≤ x) →
          l.foldl (fun acc' c => match acc' with
            | none => none
            | some st' => dfs s fuel c st') (some (vis0, acc0)) = some (visF, accF) →
          DfsInv s r visF accF ∧ GrayEq vis0 acc0 visF accF ∧
          (∀ x ∈ vis0, x ∈ visF) ∧ (∃ pre, accF = pre ++ acc0) ∧
          (∀ c ∈ l, ∀ x, Reach s c x → x ∈ accF) := by
        intro l
        induction l with
        | nil =>
          intro _ vis0 acc0 visF accF hinv0 hg0 hf0
          injection hf0 with hf0
          injection hf0 with hf1 hf2
          subst hf1
          subst hf2
          exact ⟨hinv0, fun x => Iff.rfl, fun x hx => hx, ⟨[], rfl⟩, by simp⟩
        | cons c cs ihl =>
          intro hsub vis0 acc0 visF accF hinv0 hg0 hf0
          rw [List.foldl_cons] at hf0
          dsimp only at hf0
          cases hd1 : dfs s fuel c (vis0, acc0) with
          | none =>
            rw [hd1, dfsFoldNone] at hf0
            exact absurd hf0 (by simp)
          | some st1 =>
            obtain ⟨vis1, acc1⟩ := st1
            rw [hd1] at hf0
            have hci : c ∈ (getN s i).children := hsub c (List.mem_cons_self _ _)
            have hrc : Reach s r c := Reach.tail hri hci
            have hcf : c < fuel :=
              Nat.lt_of_lt_of_le (wf i c hci) (Nat.lt_succ_iff.mp hif)
            have hgc : ∀ x ∈ vis0, x ∉ acc0 → c < x :=
              fun x hx hnx => Nat.lt_of_lt_of_le (wf i c hci) (hg0 x hx hnx)
            obtain ⟨hinv1, hgray1, hsub1, ⟨p1, hp1⟩, hreach1⟩ :=
              ih hrc hcf hinv0 hgc hd1
            have hg1 : ∀ x ∈ vis1, x ∉ acc1 → i ≤ x := by
              intro x hx hnx
              obtain ⟨hxv, hxa⟩ := (hgray1 x).mp ⟨hx, hnx⟩
              exact hg0 x hxv hxa
            obtain ⟨hinvF, hgrayF, hsubF, ⟨p2, hp2⟩, hreachF⟩ :=
              ihl (fun c' hc' => hsub c' (List.mem_cons_of_mem _ hc')) hinv1 hg1 hf0
            refine ⟨hinvF, ?_, fun x hx => hsubF x (hsub1 x hx), ?_, ?_⟩
            · intro x
              exact (hgrayF x).trans (hgray1 x)
            · refine ⟨p2 ++ p1, ?_⟩
              rw [hp2, hp1, List.append_assoc]
            · intro c' hc' x hx
              rcases List.mem_cons.mp hc' with rfl | hc2
              · have : x ∈ acc1 := hreach1 x hx
                rw [hp2]
                exact List.mem_append.mpr (Or.inr this)
              · exact hreachF c' hc2 x hx
      -- apply the fold lemma
      have hinv1 : DfsInv s r (i :: vis) acc :=
        ⟨fun x hx => List.mem_cons_of_mem _ (hav x hx),
         fun x hx => by
           rcases List.mem_cons.mp hx with rfl | hx2
           · exact hri
           · exact hvr x hx2,
         hnd, hord⟩
      have hg1 : ∀ x ∈ i :: vis, x ∉ acc → i ≤ x := by
        intro x hx hnx
        rcases List.mem_cons.mp hx with rfl | hx2
        · exact Nat.le_refl x
        · exact Nat.le_of_lt (hgray x hx2 hnx)
      cases hf : (getN s i).children.foldl (fun acc' c => match acc' with
          | none => none
          | some st' => dfs s fuel c st') (some (i :: vis, acc)) with
      | none =>
        rw [hf] at hd
        exact absurd hd (by simp)
      | some stK =>
        obtain ⟨visK, accK⟩ := stK
        rw [hf] at hd
        dsimp only at hd
        injection hd with hd
        injection hd with hd1 hd2
        subst hd1
        subst hd2
        obtain ⟨⟨havK, hvrK, hndK, hordK⟩, hgrayK, hsubK, ⟨pre, hpre⟩, hreachK⟩ :=
          fold_main _ (fun c hc => hc) hinv1 hg1 hf
        have higK : i ∈ visK ∧ i ∉ accK :=
          (hgrayK i).mpr ⟨List.mem_cons_self _ _, hia⟩
        have hchK : ∀ c ∈ (getN s i).children, c ∈ accK :=
          fun c hc => hreachK c hc c (Reach.refl c)
        refine ⟨⟨?_, hvrK, ?_, orderOK_cons hordK hchK⟩, ?_, ?_, ?_, ?_⟩
        · intro x hx
          rcases List.mem_cons.mp hx with rfl | hx2
          · exact higK.1
          · exact havK x hx2
        · exact List.nodup_cons.mpr ⟨higK.2, hndK⟩
        · -- GrayEq vis acc visK (i :: accK)
          intro x
          constructor
          · rintro ⟨hxv, hxa⟩
            have hxne : x ≠ i := fun he => hxa (he ▸ List.mem_cons_self _ _)
            have hxa2 : x ∉ accK := fun hm => hxa (List.mem_cons_of_mem _ hm)
            obtain ⟨hxv0, hxa0⟩ := (hgrayK x).mp ⟨hxv, hxa2⟩
            rcases List.mem_cons.mp hxv0 with rfl | hx2
            · exact absurd rfl hxne
            · exact ⟨hx2, hxa0⟩
          · rintro ⟨hxv, hxa⟩
            have hxne : x ≠ i := fun he => hiv (he ▸ hxv)
            obtain ⟨hxvK, hxaK⟩ := (hgrayK x).mpr ⟨List.mem_cons_of_mem _ hxv, hxa⟩
            refine ⟨hxvK, ?_⟩
            intro hm
            rcases List.mem_cons.mp hm with he | hm2
            · exact hxne he
            · exact hxaK hm2
        · exact fun x hx => hsubK x (List.mem_cons_of_mem _ hx)
        · exact ⟨i :: pre, by rw [hpre]; rfl⟩
        · -- every node reachable from i is in i :: accK
          intro x hx
          induction hx with
          | refl => exact List.mem_cons_self _ _
          | tail hj hcj ihj =>
            rcases List.mem_cons.mp ihj with rfl | hj2
            · exact List.mem_cons_of_mem _ (hchK _ hcj)
            · exact List.mem_cons_of_mem _ (orderOK_closed hordK _ hj2 _ hcj)

end DfsInvariant

section C3Assembly

theorem dfsInv_nil (s : Store) (r : Nat) : DfsInv s r [] [] := by
  refine ⟨by simp, by simp, List.nodup_nil, ?_⟩
  intro l1 a l2 he
  cases l1 <;> simp at he

theorem backward_contract_general {s : Store} {r : Nat} {t : Store}
    (wf : wfStore s) (hr : r < storeLen s)
    (ht : backward r s = some t) :
    (getN t r).g = .fin 1 ∧
    ∃ vis sorted, dfs s (storeLen s + 1) r ([], []) = some (vis, sorted) ∧
      sorted.Nodup ∧ (∀ n, n ∈ sorted ↔ Reach s r n) ∧ OrderOK s sorted := by
  obtain ⟨vis, sorted, hd, hrun⟩ := backward_parts ht
  have hmain := dfs_main wf (storeLen s + 1) (Reach.refl r)
    (Nat.lt_succ_of_lt hr) (dfsInv_nil s r) (by simp) hd
  refine ⟨backward_root_g wf hr ht, vis, sorted, hd, hmain.1.2.2.1, ?_, hmain.1.2.2.2⟩
  intro n
  constructor
  · exact sorted_reach hd n
  · exact hmain.2.2.2.2 n

end C3Assembly

/-- C3: for every constructor-built store (so no backward pass has yet
run) and every well-formed (acyclic) in-range root, a completing
`backward(root)` finds `root.gradient = 0.0` beforehand, leaves it at
`1.0`, and the traversal order it applies the derivative rules in
contains every reachable node exactly once (`Nodup` + membership iff
reachability) and runs every parent before each of its children
(`OrderOK`).  No non-NaN proviso is needed: the visited set finds a
node's own earlier insertion through the `Rc::ptr_eq` fast path
regardless of its value. -/
theorem backward_contract (steps : List BStep) (r : Nat) (t : Store)
    (wf : wfStore (buildStore steps)) (hr : r < storeLen (buildStore steps))
    (ht : backward r (buildStore steps) = some t) :
    (getN (buildStore steps) r).g = .fin 0 ∧
    (getN t r).g = .fin 1 ∧
    ∃ vis sorted, dfs (buildStore steps) (storeLen (buildStore steps) + 1) r ([], []) =
        some (vis, sorted) ∧
      sorted.Nodup ∧ (∀ n, n ∈ sorted ↔ Reach (buildStore steps) r n) ∧
      OrderOK (buildStore steps) sorted := by
  obtain ⟨h1, h2⟩ := backward_contract_general wf hr ht
  exact ⟨buildStore_g0 steps r, h1, h2⟩

/-- C3 witness: the contract instantiated on the diamond graph; its
traversal order `[5, 4, 2, 3, 1, 0]` is duplicate-free and parent-first,
and the seed behaves as claimed. -/
theorem backward_contract_witness :
    (getN (buildStore dSteps) 5).g = .fin 0 ∧
    (getN tDiamond 5).g = .fin 1 ∧
    ∃ vis sorted, dfs (buildStore dSteps) (storeLen (buildStore dSteps) + 1) 5 ([], []) =
        some (vis, sorted) ∧
      sorted.Nodup ∧ (∀ n, n ∈ sorted ↔ Reach (buildStore dSteps) 5 n) ∧
      OrderOK (buildStore dSteps) sorted :=
  backward_contract dSteps 5 tDiamond
    (wfStore_of_wfB (of_decide_eq_true (by with_unfolding_all rfl)))
    (of_decide_eq_true (by with_unfolding_all rfl))
    (of_decide_eq_true (by with_unfolding_all rfl))

/-- Even a NaN-valued composite shared by both slots of its parent is
visited exactly once: its own entry is found by the pointer-equality
fast path, so `sNanShared`'s traversal order is duplicate-free and the
zero leaf ends with gradient `2.0`, as the exactly-once contract
predicts. -/
theorem nan_shared_dedup_example :
    dfs sNanShared (storeLen sNanShared + 1) 3 ([], []) =
      some ([1, 0, 2, 3], [3, 2, 1, 0]) ∧
    gradAfter 3 1 sNanShared = some (.fin 2) :=
  ⟨of_decide_eq_true (by with_unfolding_all rfl),
   of_decide_eq_true (by with_unfolding_all rfl)⟩

section PairLemmas

theorem getN_setGrad_g_any {A : Store} (t : Nat) (x : F64) (ht : t < storeLen A) :
    (getN (setGrad A t x) t).g = x := getN_setGrad_g x ht

theorem pairRel_addWrite {s A B : Store} {n : Nat} {c : F64}
    (h : PairRel s n c A B) (t : Nat) (w : F64)
    (hw : t ≠ n → ¬ SDesc s n t → (getN A t).g = (getN B t).g) :
    PairRel s n c (setGrad A t (addF (getN A t).g w)) (setGrad B t (addF (getN B t).g w)) := by
  obtain ⟨hA, hB, hlA, hlB, hgn, hoth⟩ := h
  refine ⟨sameShapeTrans (sameShape_setGrad A t _) hA,
    sameShapeTrans (sameShape_setGrad B t _) hB,
    (storeLen_setGrad A t _).trans hlA, (storeLen_setGrad B t _).trans hlB, ?_, ?_⟩
  · rcases Decidable.em (t = n) with rfl | hne
    · rcases Nat.lt_or_ge t (storeLen s) with hlt | hge
      · rw [getN_setGrad_g _ (hlA ▸ hlt), getN_setGrad_g _ (hlB ▸ hlt), hgn,
          addF_assoc]
      · rw [setGrad_ge_len _ (hlA ▸ hge), setGrad_ge_len _ (hlB ▸ hge)]
        exact hgn
    · rw [getN_setGrad_ne _ fun he => hne he.symm, getN_setGrad_ne _ fun he => hne he.symm]
      exact hgn
  · intro m hmn hmd
    rcases Decidable.em (m = t) with rfl | hne
    · rcases Nat.lt_or_ge m (storeLen s) with hlt | hge
      · rw [getN_setGrad_g _ (hlA ▸ hlt), getN_setGrad_g _ (hlB ▸ hlt),
          hw hmn hmd]
      · rw [setGrad_ge_len _ (hlA ▸ hge), setGrad_ge_len _ (hlB ▸ hge)]
        exact hoth m hmn hmd
    · rw [getN_setGrad_ne _ hne, getN_setGrad_ne _ hne]
      exact hoth m hmn hmd

theorem pairRel_descWrite {s A B : Store} {n : Nat} {c : F64} (wf : wfStore s)
    (h : PairRel s n c A B) {t : Nat} (hdesc : SDesc s n t) (xA xB : F64) :
    PairRel s n c (setGrad A t xA) (setGrad B t xB) := by
  obtain ⟨hA, hB, hlA, hlB, hgn, hoth⟩ := h
  have htn : t ≠ n := fun he => SDesc_not_self wf n (he ▸ hdesc)
  refine ⟨sameShapeTrans (sameShape_setGrad A t _) hA,
    sameShapeTrans (sameShape_setGrad B t _) hB,
    (storeLen_setGrad A t _).trans hlA, (storeLen_setGrad B t _).trans hlB, ?_, ?_⟩
  · rw [getN_setGrad_ne _ fun he => htn he.symm, getN_setGrad_ne _ fun he => htn he.symm]
    exact hgn
  · intro m hmn hmd
    have hmt : m ≠ t := fun he => hmd (he ▸ hdesc)
    rw [getN_setGrad_ne _ hmt, getN_setGrad_ne _ hmt]
    exact hoth m hmn hmd

end PairLemmas

section ApplyBwdPair

theorem getN_v_pair {s A B : Store} (hA : SameShape A s) (hB : SameShape B s) (m : Nat) :
    (getN B m).v = (getN A m).v := ((hB m).1).trans ((hA m).1).symm

theorem setGrad_v (A : Store) (t : Nat) (x : F64) (m : Nat) :
    (getN (setGrad A t x) m).v = (getN A m).v := (sameShape_setGrad A t x m).1

theorem applyBwd_pair {s A B : Store} {n : Nat} {c : F64} (wf : wfStore s)
    (h : PairRel s n c A B) (a : Nat) :
    ((applyBwd A a).isSome = (applyBwd B a).isSome) ∧
    (∀ A' B', applyBwd A a = some A' → applyBwd B a = some B' → PairRel s n c A' B') := by
  have hA := h.1
  have hB := h.2.1
  have hoth := h.2.2.2.2.2
  have hbA : (getN A a).bwd = (getN s a).bwd := (hA a).2.2.2
  have hbB : (getN B a).bwd = (getN s a).bwd := (hB a).2.2.2
  have hcA : (getN A a).children = (getN s a).children := (hA a).2.2.1
  have hcB : (getN B a).children = (getN s a).children := (hB a).2.2.1
  unfold applyBwd
  rw [hbA, hbB, hcA, hcB]
  cases hbw : (getN s a).bwd with
  | none => exact ⟨rfl, fun A' B' e1 e2 => by cases e1; cases e2; exact h⟩
  | some fn =>
    cases fn with
    | addFn =>
      cases hch : (getN s a).children with
      | nil => exact ⟨rfl, fun A' B' e1 e2 => by cases e1⟩
      | cons c0 rest =>
        cases rest with
        | nil => exact ⟨rfl, fun A' B' e1 e2 => by cases e1⟩
        | cons c1 rest2 =>
          dsimp only
          by_cases h0 : c0 = a
          · simp only [if_pos h0]
            exact ⟨trivial, fun A' B' e1 e2 => by cases e1⟩
          · simp only [if_neg h0]
            by_cases h1 : c1 = a
            · simp only [if_pos h1]
              exact ⟨trivial, fun A' B' e1 e2 => by cases e1⟩
            · simp only [if_neg h1]
              refine ⟨rfl, ?_⟩
              intro A' B' e1 e2
              injection e1 with e1
              injection e2 with e2
              subst e1
              subst e2
              have hm0 : c0 ∈ (getN s a).children := by
                rw [hch]; exact List.mem_cons_self _ _
              have hm1 : c1 ∈ (getN s a).children := by
                rw [hch]; exact List.mem_cons_of_mem _ (List.mem_cons_self _ _)
              by_cases hcase : a = n ∨ SDesc s n a
              · have hd0 : SDesc s n c0 := SDesc_step hm0 hcase
                have hd1 : SDesc s n c1 := SDesc_step hm1 hcase
                exact pairRel_descWrite wf (pairRel_descWrite wf h hd0 _ _) hd1 _ _
              · push_neg at hcase
                obtain ⟨han, had⟩ := hcase
                have hga : (getN B a).g = (getN A a).g := (hoth a han had).symm
                rw [hga]
                have e3 : (getN (setGrad A c0 (addF (getN A c0).g (getN A a).g)) a).g
                    = (getN A a).g :=
                  congrArg Node.g (getN_setGrad_ne _ fun he => h0 he.symm)
                have e4 : (getN (setGrad B c0 (addF (getN B c0).g (getN A a).g)) a).g
                    = (getN A a).g := by
                  rw [getN_setGrad_ne _ fun he => h0 he.symm, hga]
                rw [e3, e4]
                have h1' := pairRel_addWrite h c0 ((getN A a).g)
                  (fun hn hd => hoth c0 hn hd)
                exact pairRel_addWrite h1' c1 ((getN A a).g)
                  (fun hn hd => h1'.2.2.2.2.2 c1 hn hd)
    | mulFn =>
      cases hch : (getN s a).children with
      | nil => exact ⟨rfl, fun A' B' e1 e2 => by cases e1⟩
      | cons c0 rest =>
        cases rest with
        | nil => exact ⟨rfl, fun A' B' e1 e2 => by cases e1⟩
        | cons c1 rest2 =>
          dsimp only
          by_cases hg : c0 = a ∨ c1 = a ∨ c0 = c1
          · simp only [if_pos hg]
            exact ⟨trivial, fun A' B' e1 e2 => by cases e1⟩
          · simp only [if_neg hg]
            refine ⟨rfl, ?_⟩
            intro A' B' e1 e2
            injection e1 with e1
            injection e2 with e2
            subst e1
            subst e2
            push_neg at hg
            obtain ⟨g0, g1, g2⟩ := hg
            have hm0 : c0 ∈ (getN s a).children := by
              rw [hch]; exact List.mem_cons_self _ _
            have hm1 : c1 ∈ (getN s a).children := by
              rw [hch]; exact List.mem_cons_of_mem _ (List.mem_cons_self _ _)
            by_cases hcase : a = n ∨ SDesc s n a
            · have hd0 : SDesc s n c0 := SDesc_step hm0 hcase
              have hd1 : SDesc s n c1 := SDesc_step hm1 hcase
              exact pairRel_descWrite wf (pairRel_descWrite wf h hd0 _ _) hd1 _ _
            · push_neg at hcase
              obtain ⟨han, had⟩ := hcase
              have hga : (getN B a).g = (getN A a).g := (hoth a han had).symm
              have hv1 : (getN B c1).v = (getN A c1).v := getN_v_pair hA hB c1
              rw [hga, hv1]
              have eA : mulF (getN (setGrad A c0 (addF (getN A c0).g
                  (mulF (getN A a).g (getN A c1).v))) a).g
                  ((getN (setGrad A c0 (addF (getN A c0).g
                    (mulF (getN A a).g (getN A c1).v))) c0).v)
                  = mulF (getN A a).g ((getN A c0).v) := by
                rw [getN_setGrad_ne _ fun he => g0 he.symm, setGrad_v]
              have eB : mulF (getN (setGrad B c0 (addF (getN B c0).g
                  (mulF (getN A a).g (getN A c1).v))) a).g
                  ((getN (setGrad B c0 (addF (getN B c0).g
                    (mulF (getN A a).g (getN A c1).v))) c0).v)
                  = mulF (getN A a).g ((getN A c0).v) := by
                rw [getN_setGrad_ne _ fun he => g0 he.symm, setGrad_v, hga,
                  getN_v_pair hA hB c0]
              rw [eA, eB]
              have h1' := pairRel_addWrite h c0 (mulF (getN A a).g (getN A c1).v)
                (fun hn hd => hoth c0 hn hd)
              exact pairRel_addWrite h1' c1 (mulF (getN A a).g ((getN A c0).v))
                (fun hn hd => h1'.2.2.2.2.2 c1 hn hd)
    | powFn =>
      cases hch : (getN s a).children with
      | nil => exact ⟨rfl, fun A' B' e1 e2 => by cases e1⟩
      | cons c0 rest =>
        cases rest with
        | nil => exact ⟨rfl, fun A' B' e1 e2 => by cases e1⟩
        | cons c1 rest2 =>
          dsimp only
          by_cases hg : c0 = a ∨ c1 = c0
          · simp only [if_pos hg]
            exact ⟨trivial, fun A' B' e1 e2 => by cases e1⟩
          · simp only [if_neg hg]
            refine ⟨rfl, ?_⟩
            intro A' B' e1 e2
            injection e1 with e1
            injection e2 with e2
            subst e1
            subst e2
            have hm0 : c0 ∈ (getN s a).children := by
              rw [hch]; exact List.mem_cons_self _ _
            by_cases hcase : a = n ∨ SDesc s n a
            · exact pairRel_descWrite wf h (SDesc_step hm0 hcase) _ _
            · push_neg at hcase
              obtain ⟨han, had⟩ := hcase
              have hga : (getN B a).g = (getN A a).g := (hoth a han had).symm
              have hv1 : (getN B c1).v = (getN A c1).v := getN_v_pair hA hB c1
              have hv0 : (getN B c0).v = (getN A c0).v := getN_v_pair hA hB c0
              rw [hga, hv1, hv0]
              exact pairRel_addWrite h c0
                (mulF (mulF (getN A a).g (getN A c1).v)
                  (powF (getN A c0).v (subF (getN A c1).v (.fin 1))))
                (fun hn hd => hoth c0 hn hd)
    | reluFn =>
      cases hch : (getN s a).children with
      | nil => exact ⟨rfl, fun A' B' e1 e2 => by cases e1⟩
      | cons c0 rest =>
        dsimp only
        by_cases h0 : c0 = a
        · simp only [if_pos h0]
          exact ⟨trivial, fun A' B' e1 e2 => by cases e1⟩
        · simp only [if_neg h0]
          refine ⟨rfl, ?_⟩
          intro A' B' e1 e2
          injection e1 with e1
          injection e2 with e2
          subst e1
          subst e2
          have hm0 : c0 ∈ (getN s a).children := by
            rw [hch]; exact List.mem_cons_self _ _
          by_cases hcase : a = n ∨ SDesc s n a
          · exact pairRel_descWrite wf h (SDesc_step hm0 hcase) _ _
          · push_neg at hcase
            obtain ⟨han, had⟩ := hcase
            have hga : (getN B a).g = (getN A a).g := (hoth a han had).symm
            have hva : (getN B a).v = (getN A a).v := getN_v_pair hA hB a
            rw [hga, hva]
            exact pairRel_addWrite h c0
              (mulF (getN A a).g (if gtF (getN A a).v (.fin 0) then .fin 1 else .fin 0))
              (fun hn hd => hoth c0 hn hd)

end ApplyBwdPair

section RunRulesPair

theorem runRules_pair {s : Store} {n : Nat} {c : F64} (wf : wfStore s) :
    ∀ (l : List Nat) {A B : Store}, PairRel s n c A B →
    ((runRules A l).isSome = (runRules B l).isSome) ∧
    (∀ A' B', runRules A l = some A' → runRules B l = some B' → PairRel s n c A' B') := by
  intro l
  induction l with
  | nil =>
    intro A B h
    exact ⟨rfl, fun A' B' e1 e2 => by cases e1; cases e2; exact h⟩
  | cons a rest ih =>
    intro A B h
    have hp := applyBwd_pair wf h a
    unfold runRules
    cases hA1 : applyBwd A a with
    | none =>
      have hB1 : applyBwd B a = none := by
        have h1 := hp.1
        rw [hA1] at h1
        cases hB2 : applyBwd B a with
        | none => rfl
        | some B1 => rw [hB2] at h1; cases h1
      rw [hB1]
      exact ⟨rfl, fun A' B' e1 e2 => by cases e1⟩
    | some A1 =>
      cases hB1 : applyBwd B a with
      | none =>
        have h1 := hp.1
        rw [hA1, hB1] at h1
        cases h1
      | some B1 =>
        have h1 := hp.2 A1 B1 hA1 hB1
        exact ih h1

end RunRulesPair

section AccumulateAssembly

theorem pairRel_seeded (s : Store) (r n : Nat) (c : F64)
    (hn : n < storeLen s) (hnr : n ≠ r) :
    PairRel s n c (setGrad (setGrad s n c) r (.fin 1))
      (setGrad (setGrad s n (.fin 0)) r (.fin 1)) := by
  refine ⟨sameShapeTrans (sameShape_setGrad _ _ _) (sameShape_setGrad _ _ _),
    sameShapeTrans (sameShape_setGrad _ _ _) (sameShape_setGrad _ _ _),
    (storeLen_setGrad _ _ _).trans (storeLen_setGrad _ _ _),
    (storeLen_setGrad _ _ _).trans (storeLen_setGrad _ _ _), ?_, ?_⟩
  · rw [getN_setGrad_ne _ hnr, getN_setGrad_ne _ hnr,
      getN_setGrad_g _ hn, getN_setGrad_g _ hn]
    rw [addF_f0]
  · intro m hmn _
    rcases Decidable.em (m = r) with rfl | hmr
    · rcases Nat.lt_or_ge m (storeLen s) with hlt | hge
      · rw [getN_setGrad_g _ (by rw [storeLen_setGrad]; exact hlt),
          getN_setGrad_g _ (by rw [storeLen_setGrad]; exact hlt)]
      · have hgeA : storeLen (setGrad s n c) ≤ m := by
          rw [storeLen_setGrad]; exact hge
        have hgeB : storeLen (setGrad s n (.fin 0)) ≤ m := by
          rw [storeLen_setGrad]; exact hge
        have eA : (getN (setGrad (setGrad s n c) m (.fin 1)) m).g = (getN s m).g := by
          rw [setGrad_ge_len _ hgeA, getN_setGrad_ne _ hmn]
        have eB : (getN (setGrad (setGrad s n (.fin 0)) m (.fin 1)) m).g
            = (getN s m).g := by
          rw [setGrad_ge_len _ hgeB, getN_setGrad_ne _ hmn]
        rw [eA, eB]
    · rw [getN_setGrad_ne _ hmr, getN_setGrad_ne _ hmr,
        getN_setGrad_ne _ hmn, getN_setGrad_ne _ hmn]

theorem pairRel_seeded_orig (s : Store) (r n : Nat)
    (hn : n < storeLen s) (hnr : n ≠ r) :
    PairRel s n ((getN s n).g) (setGrad s r (.fin 1))
      (setGrad (setGrad s n (.fin 0)) r (.fin 1)) := by
  have h := pairRel_seeded s r n ((getN s n).g) hn hnr
  rw [setGrad_getN_g s n] at h
  exact h

theorem backward_setGrad_eq {s : Store} {r n : Nat} (c : F64) {vis sorted : List Nat}
    (hd : dfs s (storeLen s + 1) r ([], []) = some (vis, sorted)) :
    backward r (setGrad s n c) =
      runRules (setGrad (setGrad s n c) r (.fin 1)) sorted := by
  unfold backward
  rw [storeLen_setGrad, dfs_congr (sameShape_setGrad s n c) (storeLen s + 1) r ([], []), hd]

end AccumulateAssembly

/-- C5: re-running backward accumulates rather than replaces.  For every
well-formed store, root, and node `n ≠ root`: the root's gradient is
(re-)seeded to exactly `1.0`, and there is an increment `d` — independent
of `n`'s starting gradient — such that the pass leaves `n` at
`starting gradient + d`: starting from `setGrad s n c` for ANY `c` (in
particular from the gradients a previous pass left behind) the pass ends
with `n` at `addF c d`.  Hence a second backward call adds its
contributions on top of the first pass's gradients; instantiating `c`
with the first pass's result gives the accumulation property literally. -/
theorem backward_accumulates (s : Store) (r n : Nat) (t : Store) (wf : wfStore s)
    (hr : r < storeLen s) (hn : n < storeLen s) (hnr : n ≠ r)
    (ht : backward r s = some t) :
    (getN t r).g = .fin 1 ∧
    ∃ d, (getN t n).g = addF (getN s n).g d ∧
      ∀ c, ∃ tc, backward r (setGrad s n c) = some tc ∧ (getN tc n).g = addF c d := by
  obtain ⟨vis, sorted, hd, hrun⟩ := backward_parts ht
  -- the zeroed-at-n run
  have hpair0 := pairRel_seeded_orig s r n hn hnr
  have hrr0 := runRules_pair wf sorted hpair0
  have hsome0 : (runRules (setGrad (setGrad s n (.fin 0)) r (.fin 1)) sorted).isSome := by
    rw [← hrr0.1, hrun]
    rfl
  obtain ⟨t0, ht0⟩ := Option.isSome_iff_exists.mp hsome0
  have hp0 := hrr0.2 t t0 hrun ht0
  refine ⟨backward_root_g wf hr ht, (getN t0 n).g, hp0.2.2.2.2.1, ?_⟩
  intro c
  have hpairc := pairRel_seeded s r n c hn hnr
  have hrrc := runRules_pair wf sorted hpairc
  have hsomec : (runRules (setGrad (setGrad s n c) r (.fin 1)) sorted).isSome := by
    rw [hrrc.1, ht0]
    rfl
  obtain ⟨tc, htc⟩ := Option.isSome_iff_exists.mp hsomec
  have hpc := hrrc.2 tc t0 htc ht0
  refine ⟨tc, ?_, hpc.2.2.2.2.1⟩
  rw [backward_setGrad_eq c hd]
  exact htc

/-- C5 witness: instantiated on the self-aliasing sum `s = x + x` after a
first backward pass.  The increment at `x` is independent of the gradient
already stored there, so a second pass adds on top; the root stays at
`1.0`. -/
theorem backward_accumulates_witness :
    (getN tXaddX 1).g = .fin 1 ∧
    ∃ d, (getN tXaddX 0).g = addF (getN sXaddX 0).g d ∧
      ∀ c, ∃ tc, backward 1 (setGrad sXaddX 0 c) = some tc ∧ (getN tc 0).g = addF c d :=
  backward_accumulates sXaddX 1 0 tXaddX
    (wfStore_of_wfB (of_decide_eq_true (by with_unfolding_all rfl)))
    (of_decide_eq_true (by with_unfolding_all rfl))
    (of_decide_eq_true (by with_unfolding_all rfl))
    (of_decide_eq_true (by with_unfolding_all rfl))
    (of_decide_eq_true (by with_unfolding_all rfl))

section RootFirst

theorem dfsFold_reach {s : Store} {fuel : Nat} : ∀ (l : List Nat)
    (st0 stf : List Nat × List Nat),
    l.foldl (fun acc c => match acc with
      | none => none
      | some st' => dfs s fuel c st') (some st0) = some stf →
    ∀ x ∈ stf.2, x ∈ st0.2 ∨ ∃ c ∈ l, Reach s c x := by
  intro l
  induction l with
  | nil =>
    intro st0 stf h x hx
    cases h
    exact Or.inl hx
  | cons c cs ih =>
    intro st0 stf h x hx
    rw [List.foldl_cons] at h
    dsimp only at h
    cases hd1 : dfs s fuel c st0 with
    | none =>
      rw [hd1, dfsFoldNone] at h
      exact absurd h (by simp)
    | some st1 =>
      rw [hd1] at h
      rcases ih st1 stf h x hx with hx1 | ⟨c', hc', hr'⟩
      · rcases (dfs_reach fuel hd1).2 x hx1 with hx2 | hx2
        · exact Or.inl hx2
        · exact Or.inr ⟨c, List.mem_cons_self _ _, hx2⟩
      · exact Or.inr ⟨c', List.mem_cons_of_mem _ hc', hr'⟩

theorem reach_of_childless {s : Store} {j a : Nat}
    (hch : (getN s j).children = []) (h : Reach s j a) : a = j := by
  induction h with
  | refl => rfl
  | tail hj hc ih =>
    rw [ih] at hc
    rw [hch] at hc
    exact absurd hc (List.not_mem_nil _)

theorem dfs_root_cons {s : Store} {r fuel : Nat} {vis sorted : List Nat}
    (hd : dfs s (fuel + 1) r ([], []) = some (vis, sorted)) :
    ∃ rest, sorted = r :: rest ∧
      ∀ a ∈ rest, ∃ c ∈ (getN s r).children, Reach s c a := by
  rw [dfs] at hd
  have hcf : hsContains s [] r = false := rfl
  rw [if_neg (by simp [hcf])] at hd
  cases hf : (getN s r).children.foldl (fun acc c => match acc with
      | none => none
      | some st' => dfs s fuel c st') (some (r :: ([] : List Nat), ([] : List Nat))) with
  | none =>
    rw [hf] at hd
    exact absurd hd (by simp)
  | some stK =>
    rw [hf] at hd
    dsimp only at hd
    injection hd with hd
    injection hd with hd1 hd2
    subst hd1
    subst hd2
    refine ⟨stK.2, rfl, ?_⟩
    intro a ha
    rcases dfsFold_reach _ _ _ hf a ha with h1 | h1
    · exact absurd h1 (List.not_mem_nil _)
    · exact h1

theorem runRules_single_writer {s0 : Store} {l : List Nat} {i m : Nat} {t : Store}
    (hrun : runRules s0 (i :: l) = some t)
    (hnot : ∀ a ∈ l, m ∉ writeTargets s0 a) :
    ∃ s1, applyBwd s0 i = some s1 ∧ (getN t m).g = (getN s1 m).g := by
  unfold runRules at hrun
  cases happ : applyBwd s0 i with
  | none =>
    rw [happ] at hrun
    exact absurd hrun (by simp)
  | some s1 =>
    rw [happ] at hrun
    refine ⟨s1, rfl, ?_⟩
    apply (runRules_spec hrun).2
    intro a ha
    rw [writeTargets_congr (applyBwd_spec happ).1]
    exact hnot a ha

theorem getN_append_two (s : Store) (a b : Node) :
    getN (s ++ [a, b]) (storeLen s + 1) = b := by
  rw [getN_eq_get?]
  unfold storeLen
  rw [List.get?_append_right (Nat.le_succ_of_le (Nat.le_refl _))]
  simp

end RootFirst

section PowRelu

theorem wf_append_pow {s : Store} (wf : wfStore s) (x : Nat) (p : ℚ) (hx : x < storeLen s) :
    wfStore (s ++ [{ v := .fin p, g := .fin 0, op := "", children := [], bwd := none },
      { v := powF (getN s x).v (.fin p), g := .fin 0, op := "^",
        children := [x, storeLen s], bwd := some .powFn }]) := by
  intro j c hc
  rcases Nat.lt_or_ge j (storeLen s) with hj | hj
  · rw [getN_append_lt _ hj] at hc
    exact wf j c hc
  · rcases Nat.lt_or_ge j (storeLen s + 2) with hj2 | hj2
    · have hcases : j = storeLen s ∨ j = storeLen s + 1 := by omega
      rcases hcases with rfl | rfl
      · rw [getN_append_len] at hc
        exact absurd hc (List.not_mem_nil _)
      · rw [getN_append_two] at hc
        rcases List.mem_cons.mp hc with rfl | hc2
        · omega
        · rcases List.mem_cons.mp hc2 with rfl | hc3
          · omega
          · exact absurd hc3 (List.not_mem_nil _)
    · rw [getN_ge_len (by rw [storeLen_append]; exact hj2)] at hc
      exact absurd hc (List.not_mem_nil _)

theorem wf_append_relu {s : Store} (wf : wfStore s) (x : Nat) (v0 : F64) (hx : x < storeLen s) :
    wfStore (s ++ [{ v := v0, g := .fin 0, op := "ReLU",
                     children := [x], bwd := some .reluFn }]) := by
  intro j c hc
  rcases Nat.lt_or_ge j (storeLen s) with hj | hj
  · rw [getN_append_lt _ hj] at hc
    exact wf j c hc
  · rcases Nat.lt_or_ge j (storeLen s + 1) with hj2 | hj2
    · have : j = storeLen s := by omega
      subst this
      rw [getN_append_len] at hc
      rcases List.mem_cons.mp hc with rfl | hc2
      · omega
      · exact absurd hc2 (List.not_mem_nil _)
    · rw [getN_ge_len (by rw [storeLen_append]; exact hj2)] at hc
      exact absurd hc (List.not_mem_nil _)

end PowRelu

theorem pow_backward_core {S : Store} {x e : Nat} {pv bv : F64} {t : Store}
    (wf : wfStore S) (hlen : storeLen S = e + 2) (hx : x < e)
    (hnodeE : getN S e = { v := pv, g := .fin 0, op := "", children := [], bwd := none })
    (hnodeI : getN S (e + 1) = { v := bv, g := .fin 0, op := "^",
                                 children := [x, e], bwd := some .powFn })
    (ht : backward (e + 1) S = some t) :
    (getN t x).g = addF (getN S x).g
      (mulF (mulF (.fin 1) pv) (powF (getN S x).v (subF pv (.fin 1)))) ∧
    (getN t e).g = .fin 0 := by
  obtain ⟨vis, sorted, hd, hrun⟩ := backward_parts ht
  obtain ⟨rest, hsorted, hrest⟩ := dfs_root_cons hd
  rw [hnodeI] at hrest
  have hxi : x ≠ e + 1 := by omega
  have hei : e ≠ e + 1 := by omega
  have hex : e ≠ x := by omega
  have hrest2 : ∀ a ∈ rest, ∀ m, m = x ∨ m = e →
      m ∉ writeTargets (setGrad S (e + 1) (.fin 1)) a := by
    intro a ha m hm hw
    rw [writeTargets_congr (sameShape_setGrad _ _ _)] at hw
    have hwc := writeTargets_subset_children hw
    obtain ⟨c, hc, hra⟩ := hrest a ha
    rcases List.mem_cons.mp hc with rfl | hc2
    · have hax : a ≤ c := Reach_le wf hra
      have hma : m < a := wf a m hwc
      rcases hm with rfl | rfl
      · omega
      · omega
    · rcases List.mem_cons.mp hc2 with rfl | hc3
      · have ha2 : a = c := reach_of_childless (by rw [hnodeE]) hra
        subst ha2
        rw [hnodeE] at hwc
        exact absurd hwc (List.not_mem_nil _)
      · exact absurd hc3 (List.not_mem_nil _)
  rw [hsorted] at hrun
  obtain ⟨s1, happ, hgx⟩ := runRules_single_writer hrun
    (fun a ha => hrest2 a ha x (Or.inl rfl))
  obtain ⟨s1', happ', hge⟩ := runRules_single_writer hrun
    (fun a ha => hrest2 a ha e (Or.inr rfl))
  have hs1 : s1' = s1 := by
    have h12 := happ'.symm.trans happ
    injection h12
  subst hs1
  have hseedi : getN (setGrad S (e + 1) (.fin 1)) (e + 1) =
      { v := bv, g := .fin 1, op := "^", children := [x, e], bwd := some .powFn } := by
    rw [getN_setGrad_self _ (by omega), hnodeI]
  have hseede : getN (setGrad S (e + 1) (.fin 1)) e =
      { v := pv, g := .fin 0, op := "", children := [], bwd := none } := by
    rw [getN_setGrad_ne _ hei, hnodeE]
  have hseedx : getN (setGrad S (e + 1) (.fin 1)) x = getN S x :=
    getN_setGrad_ne _ hxi
  have happ2 : applyBwd (setGrad S (e + 1) (.fin 1)) (e + 1) =
      some (setGrad (setGrad S (e + 1) (.fin 1)) x
        (addF (getN S x).g
          (mulF (mulF (.fin 1) pv) (powF (getN S x).v (subF pv (.fin 1)))))) := by
    unfold applyBwd
    rw [hseedi]
    dsimp only
    rw [if_neg (by push_neg; exact ⟨hxi, hex⟩), hseedx, hseede]
  rw [happ] at happ2
  injection happ2 with happ2
  subst happ2
  constructor
  · rw [hgx, getN_setGrad_g _ (by rw [storeLen_setGrad]; omega)]
  · rw [hge, getN_setGrad_ne _ hex, getN_setGrad_ne _ hei, hnodeE]

/-- C6: `x.pow(p)` has forward value `powf(x.value, p)` (the embedded
`f64::powf`), and the backward pass from the power node seeds it with
`1.0` and gives the base `base.gradient += 1.0 * p * powf(base.value,
p - 1.0)` while the exponent leaf's gradient (handle `storeLen s`)
remains `0.0`. -/
theorem pow_forward_and_rule (s : Store) (x : Nat) (p : ℚ) (t : Store)
    (wf : wfStore s) (hx : x < storeLen s) :
    (getN (mkPow x p s).1 (mkPow x p s).2).v = powF (getN s x).v (.fin p) ∧
    (backward (mkPow x p s).2 (mkPow x p s).1 = some t →
      (getN t x).g = addF (getN s x).g
        (mulF (mulF (.fin 1) (.fin p))
          (powF (getN s x).v (subF (.fin p) (.fin 1)))) ∧
      (getN t (storeLen s)).g = .fin 0) := by
  have hs' : (mkPow x p s).1 = s ++
      [{ v := .fin p, g := .fin 0, op := "", children := [], bwd := none },
       { v := powF (getN s x).v (.fin p), g := .fin 0, op := "^",
         children := [x, storeLen s], bwd := some .powFn }] := by
    simp [mkPow, mkLeaf]
  have hi : (mkPow x p s).2 = storeLen s + 1 := rfl
  rw [hs', hi]
  have hgetx := getN_append_lt
    [{ v := .fin p, g := .fin 0, op := "", children := [], bwd := none },
     { v := powF (getN s x).v (.fin p), g := .fin 0, op := "^",
       children := [x, storeLen s], bwd := some .powFn }] hx
  have hgete := getN_append_len s
    { v := .fin p, g := .fin 0, op := "", children := [], bwd := none }
    [{ v := powF (getN s x).v (.fin p), g := .fin 0, op := "^",
       children := [x, storeLen s], bwd := some .powFn }]
  have hgeti := getN_append_two s
    { v := .fin p, g := .fin 0, op := "", children := [], bwd := none }
    { v := powF (getN s x).v (.fin p), g := .fin 0, op := "^",
      children := [x, storeLen s], bwd := some .powFn }
  constructor
  · rw [hgeti]
  · intro ht
    have hlen : storeLen (s ++
        [{ v := .fin p, g := .fin 0, op := "", children := [], bwd := none },
         { v := powF (getN s x).v (.fin p), g := .fin 0, op := "^",
           children := [x, storeLen s], bwd := some .powFn }]) = storeLen s + 2 := by
      rw [storeLen_append]
      rfl
    have hcore := pow_backward_core (wf_append_pow wf x p hx) hlen hx hgete hgeti ht
    rw [hgetx] at hcore
    exact hcore


theorem relu_backward_core {S : Store} {x i : Nat} {rv : F64} {t : Store}
    (wf : wfStore S) (hlen : storeLen S = i + 1) (hx : x < i)
    (hnodeI : getN S i = { v := rv, g := .fin 0, op := "ReLU",
                           children := [x], bwd := some .reluFn })
    (ht : backward i S = some t) :
    (getN t x).g = addF (getN S x).g
      (mulF (.fin 1) (if gtF rv (.fin 0) then .fin 1 else .fin 0)) := by
  obtain ⟨vis, sorted, hd, hrun⟩ := backward_parts ht
  obtain ⟨rest, hsorted, hrest⟩ := dfs_root_cons hd
  rw [hnodeI] at hrest
  have hxi : x ≠ i := by omega
  have hrest2 : ∀ a ∈ rest, x ∉ writeTargets (setGrad S i (.fin 1)) a := by
    intro a ha hw
    rw [writeTargets_congr (sameShape_setGrad _ _ _)] at hw
    have hwc := writeTargets_subset_children hw
    obtain ⟨c, hc, hra⟩ := hrest a ha
    rcases List.mem_cons.mp hc with hcx | hc2
    · rw [hcx] at hra
      have hax : a ≤ x := Reach_le wf hra
      have hma : x < a := wf a x hwc
      omega
    · exact absurd hc2 (List.not_mem_nil _)
  rw [hsorted] at hrun
  obtain ⟨s1, happ, hgx⟩ := runRules_single_writer hrun hrest2
  have hseedi : getN (setGrad S i (.fin 1)) i =
      { v := rv, g := .fin 1, op := "ReLU", children := [x], bwd := some .reluFn } := by
    rw [getN_setGrad_self _ (by omega), hnodeI]
  have hseedx : getN (setGrad S i (.fin 1)) x = getN S x :=
    getN_setGrad_ne _ hxi
  have happ2 : applyBwd (setGrad S i (.fin 1)) i =
      some (setGrad (setGrad S i (.fin 1)) x
        (addF (getN S x).g
          (mulF (.fin 1) (if gtF rv (.fin 0) then .fin 1 else .fin 0)))) := by
    unfold applyBwd
    rw [hseedi]
    dsimp only
    rw [if_neg hxi, hseedx]
  rw [happ] at happ2
  injection happ2 with happ2
  subst happ2
  rw [hgx, getN_setGrad_g _ (by rw [storeLen_setGrad]; omega)]

/-- C7: `relu(x)` has forward value `max(x.value, 0.0)` (Rust `f64::max`,
which returns `0.0` on a NaN input), and its backward rule adds
`incoming * 1` to the child exactly when the relu NODE's value is
strictly greater than `0`, else adds `incoming * 0`; at `x.value = 0.0`
the node's value is `0.0` and the gradient stays `0.0`. -/
theorem relu_forward_and_rule (s : Store) (x : Nat) (t : Store)
    (wf : wfStore s) (hx : x < storeLen s) :
    (getN (mkRelu x s).1 (mkRelu x s).2).v = maxF (getN s x).v (.fin 0) ∧
    (backward (mkRelu x s).2 (mkRelu x s).1 = some t →
      (getN t x).g = addF (getN s x).g
        (mulF (.fin 1)
          (if gtF (maxF (getN s x).v (.fin 0)) (.fin 0) then .fin 1 else .fin 0))) := by
  have hs' : (mkRelu x s).1 = s ++
      [{ v := maxF (getN s x).v (.fin 0), g := .fin 0, op := "ReLU",
         children := [x], bwd := some .reluFn }] := rfl
  have hi : (mkRelu x s).2 = storeLen s := rfl
  rw [hs', hi]
  have hnodeI := getN_append_len s
    { v := maxF (getN s x).v (.fin 0), g := .fin 0, op := "ReLU",
      children := [x], bwd := some .reluFn } []
  have hgetx := getN_append_lt
    [{ v := maxF (getN s x).v (.fin 0), g := .fin 0, op := "ReLU",
       children := [x], bwd := some .reluFn }] hx
  constructor
  · rw [hnodeI]
  · intro ht
    have hlen : storeLen (s ++
        [{ v := maxF (getN s x).v (.fin 0), g := .fin 0, op := "ReLU",
           children := [x], bwd := some .reluFn }]) = storeLen s + 1 := by
      rw [storeLen_append]
      rfl
    have hcore := relu_backward_core (wf_append_relu wf x _ hx) hlen hx hnodeI ht
    rw [hgetx] at hcore
    exact hcore

/-- C6 witness: for `x.value = 2.0` and `p = 3.0` the power node's value
is `8.0`, after backward `x.gradient = 12.0`, and the exponent leaf's
gradient is `0.0`. -/
theorem pow_forward_and_rule_witness :
    (getN (mkPow 0 3 sPowBase).1 (mkPow 0 3 sPowBase).2).v = .fin 8 ∧
    (getN tPow 0).g = .fin 12 ∧ (getN tPow 1).g = .fin 0 := by
  have h := pow_forward_and_rule sPowBase 0 3 tPow
    (wfStore_of_wfB (of_decide_eq_true (by with_unfolding_all rfl)))
    (of_decide_eq_true (by with_unfolding_all rfl))
  have hb : backward (mkPow 0 3 sPowBase).2 (mkPow 0 3 sPowBase).1 = some tPow :=
    of_decide_eq_true (by with_unfolding_all rfl)
  obtain ⟨h1, h2⟩ := h
  obtain ⟨h3, h4⟩ := h2 hb
  refine ⟨?_, ?_, ?_⟩
  · rw [h1]
    exact of_decide_eq_true (by with_unfolding_all rfl)
  · rw [h3]
    exact of_decide_eq_true (by with_unfolding_all rfl)
  · exact h4

/-- C7 witness: for `x.value = 0.0` exactly, `relu(x).value = 0.0` and
after backward with unit seed `x.gradient = 0.0` (the `≤ 0` branch). -/
theorem relu_forward_and_rule_witness :
    (getN (mkRelu 0 sReluBase).1 (mkRelu 0 sReluBase).2).v = .fin 0 ∧
    (getN tRelu 0).g = .fin 0 := by
  have h := relu_forward_and_rule sReluBase 0 tRelu
    (wfStore_of_wfB (of_decide_eq_true (by with_unfolding_all rfl)))
    (of_decide_eq_true (by with_unfolding_all rfl))
  have hb : backward (mkRelu 0 sReluBase).2 (mkRelu 0 sReluBase).1 = some tRelu :=
    of_decide_eq_true (by with_unfolding_all rfl)
  obtain ⟨h1, h2⟩ := h
  refine ⟨?_, ?_⟩
  · rw [h1]
    exact of_decide_eq_true (by with_unfolding_all rfl)
  · rw [h2 hb]
    exact of_decide_eq_true (by with_unfolding_all rfl)
